import Mathlib

/-!
Verification of `lb.C`: enumeration of positive braid words of prime knots.

A shallow embedding of the C++ program `lb.C`, which performs a depth-first
search over positive braid words (lists of generator indices `≥ 1`), pruning
with four predicates, and prints each surviving word together with the
DT code of its closure.

Braid words are modelled as `List Nat` (the program keeps every entry `≥ 1`;
we prove this as an invariant).  The first Betti number `b1` and the search
bound `maxB1` are `Int`, matching the C++ `int` arithmetic where values can
go negative.  Fallible code (`printDT`) returns `Option`; loops whose bound
the C++ code leaves implicit take explicit fuel.
-/

namespace LB

/-- `max` from `lb.C` (lines 34–40): largest entry of the word, defaulting
to `1` on the empty word. -/
def max (b : List Nat) : Nat :=
  b.foldl (fun r x => if x > r then x else r) 1

/-- `sum` from `lb.C` (lines 103–108). -/
def sum (b : List Nat) : Nat :=
  b.foldl (· + ·) 0

/-- The maximum of a list via `foldl Nat.max 0`; used to model
`std::max_element` over a nonempty range (`lb.C` line 116). -/
def maxElem (b : List Nat) : Nat :=
  b.foldl Nat.max 0

/-- `lastLetterTooHigh` from `lb.C` (lines 113–117).  The `maxB1` parameter
is unused by the C++ body and kept for signature fidelity. -/
def lastLetterTooHigh (b : List Nat) (maxB1 : Int) : Bool :=
  if b.length < 2 then false
  else decide (b.getLastD 0 > 1 + maxElem b.dropLast)

/-- One letter of the strand walk used by both `numberOfComponents`
(lines 130–136) and `printDT` (lines 64–77): the transposition swapping
strand positions `x` and `x + 1`. -/
def applyLetter (x p : Nat) : Nat :=
  if x = p then p + 1
  else if x = p - 1 then p - 1
  else p

/-- The strand position after pushing `p` through the whole word, i.e. the
permutation induced by the braid word, in word order. -/
def applyWord (b : List Nat) (p : Nat) : Nat :=
  b.foldl (fun q x => applyLetter x q) p

/-- Write `v` at position `i` of a list (models `vector::at` assignment;
all call sites stay in bounds). -/
def setNth : List Nat → Nat → Nat → List Nat
  | [], _, _ => []
  | _ :: t, 0, v => v :: t
  | h :: t, i + 1, v => h :: setNth t i v

/-- The inner `while (*i == 0)` loop of `numberOfComponents`
(lines 127–138): starting from 0-based strand index `idx`, mark the cycle
of `idx` with label `counter`, following the walk induced by the word,
until a marked cell is reached.  `fuel` bounds the iteration; the caller
passes enough for the walk to close up. -/
def markCycle (b : List Nat) : Nat → List Nat → Nat → Nat → List Nat
  | 0, comp, _, _ => comp
  | fuel + 1, comp, idx, counter =>
    if comp.getD idx 1 = 0 then
      let comp' := setNth comp idx counter
      let currentPos := applyWord b (idx + 1)
      markCycle b fuel comp' (currentPos - 1) counter
    else comp

/-- The body of the outer `while` of `numberOfComponents` (lines 125–140)
for one strand index `i`: when the cell is unlabelled, bump the component
counter and mark the whole cycle of `i`. -/
def compStep (b : List Nat) (sz : Nat) (st : List Nat × Nat) (i : Nat) :
    List Nat × Nat :=
  if st.1.getD i 1 = 0 then
    (markCycle b (sz + 1) st.1 i (st.2 + 1), st.2 + 1)
  else st

/-- `numberOfComponents` from `lb.C` (lines 119–142): `0` for the empty
word, otherwise the number of cycles found by the marking sweep over the
`max b + 1` strand positions. -/
def numberOfComponents (b : List Nat) : Nat :=
  if b = [] then 0
  else
    ((List.range (max b + 1)).foldl (compStep b (max b + 1))
      (List.replicate (max b + 1) 0, 0)).2

/-- `k`-fold application of the strand walk, on 0-based strand indices:
`iterF b k i` is the index reached from `i` after `k` rounds of the
permutation induced by the word. -/
def iterF (b : List Nat) : Nat → Nat → Nat
  | 0, i => i
  | k + 1, i => iterF b k (applyWord b (i + 1) - 1)

/-- Whether 0-based strand index `j'` lies on the cycle of `j` under the
induced permutation (the cycle of `j` is exhausted by the first
`max b + 1` iterates). -/
def reachableIn (b : List Nat) (j j' : Nat) : Bool :=
  (List.range (max b + 1)).any (fun k => iterF b k j = j')

/-- Specification-side definition of the component count, following the
spec's words: the number of cycles of the permutation induced on the
`max b + 1` strand positions by composing the transpositions
`(i, i+1)` in word order.  Each cycle is counted at its smallest
0-based strand index — the positions not reachable from any smaller
position. -/
def specNumberOfComponents (b : List Nat) : Nat :=
  ((List.range (max b + 1)).filter
    (fun i => ! (List.range i).any (fun j => reachableIn b j i))).length

/-- `b1` from `lb.C` (lines 144–146), as `Int` since it can be negative. -/
def b1 (b : List Nat) : Int :=
  1 + (b.length : Int) - ((max b : Int) + 1)

/-- One letter of the twist-region scan for the generator pair
`(i, i+1)` (lines 154–159): bump the region count whenever a kept letter
differs from the previous kept letter.  The `last` marker is an `Int`
initialised to `-1` as in the source. -/
def twistStep (i : Nat) (st : Int × Nat) (j : Nat) : Int × Nat :=
  if (j = i ∨ j = i + 1) ∧ (j : Int) ≠ st.1 then ((j : Int), st.2 + 1)
  else st

/-- The twist-region count of the generator pair `(i, i+1)`: the inner
loop of `missingCrossingsForPrimality` (lines 152–160). -/
def twistRegions (b : List Nat) (i : Nat) : Nat :=
  (b.foldl (twistStep i) (-1, 0)).2

/-- The body of the column loop of `missingCrossingsForPrimality`
(lines 161–166), with the debug-only `throw` omitted (the `debug` global
is `false`). -/
def missingStep (b : List Nat) (m : List Nat) (i : Nat) : List Nat :=
  let t := twistRegions b i
  let m1 := if t = 2 ∧ m.getD (i - 1) 1 = 0 then setNth m (i - 1) 1 else m
  if t < 4 ∧ m1.getD i 1 = 0 then setNth m1 i 1 else m1

/-- `missingCrossingsForPrimality` from `lb.C` (lines 148–169). -/
def missingCrossingsForPrimality (b : List Nat) : Nat :=
  sum ((List.range' 1 (max b - 1)).foldl (missingStep b)
    (List.replicate (max b) 0))

/-- Strict lexicographic comparison of two lists of naturals, exactly as
`std::lexicographical_compare`. -/
def lexLt : List Nat → List Nat → Bool
  | _, [] => false
  | [], _ :: _ => true
  | a :: as, b :: bs => a < b || (a = b && lexLt as bs)

/-- `lexicoGood` from `lb.C` (lines 173–179): for every split point
`i ∈ [1, n)`, the suffix starting at `i` must not be lexicographically
smaller than the prefix of the same length. -/
def lexicoGood (b : List Nat) : Bool :=
  (List.range' 1 (b.length - 1)).all
    (fun i => ! lexLt (b.drop i) (b.take (b.length - i)))

/-- Skip, walking backward, the letters that commute with `s` (those
outside `{s-1, s, s+1}`): the two `while` loops of `reidemeister`
(lines 185–186 and 190–191), on the reversed word. -/
def skipFar (s : Nat) (l : List Nat) : List Nat :=
  l.dropWhile (fun x => x < s - 1 || x > s + 1)

/-- `reidemeister` from `lb.C` (lines 181–195).  The C++ code reads
`*rbegin` unconditionally; the driver only calls it on words of length
`≥ 2`, and we return `true` on the empty word. -/
def reidemeister (b : List Nat) : Bool :=
  match b.reverse with
  | [] => true
  | s :: rest =>
    match skipFar s rest with
    | [] => true
    | x :: rest2 =>
      if x = s ∨ x = s + 1 then true
      else
        match skipFar s rest2 with
        | [] => true
        | y :: _ => decide (y = s - 1 ∨ y = s + 1)

/-- `completable` from `lb.C` (lines 200–205): the 4-bit admission mask. -/
def completable (b : List Nat) (maxB1 : Int) : Nat :=
  (if (numberOfComponents b : Int) - (maxB1 - b1 b) ≤ 1 then 1 else 0) +
  2 * (if (missingCrossingsForPrimality b : Int) ≤ maxB1 - b1 b then 1 else 0) +
  4 * (if lexicoGood b then 1 else 0) +
  8 * (if reidemeister b then 1 else 0)

/-- `appendLetter` from `lb.C` (lines 207–209). -/
def appendLetter (b : List Nat) : List Nat :=
  b ++ [if b.getLastD 0 = 1 then 1 else b.getLastD 0 - 1]

/-- `braid.back() += 1` (used at lines 225, 234, 250). -/
def incLast (b : List Nat) : List Nat :=
  b.dropLast ++ [b.getLastD 0 + 1]

/-- One crossing record of the DT extraction: the `intpair` class of
`lb.C` (lines 43–50).  The fields start at `0` / `false`, standing in for
the uninitialised C++ members (which are only read after being written). -/
structure IntPair where
  o : Nat
  e : Nat
  s : Bool
deriving Repr, DecidableEq

/-- Write one crossing record at position `i`. -/
def setRec : List IntPair → Nat → IntPair → List IntPair
  | [], _, _ => []
  | _ :: t, 0, v => v :: t
  | h :: t, i + 1, v => h :: setRec t i v

/-- The body of the `for` loop over the word in `printDT` (lines 64–77),
processing one letter at word position `idx` given the current strand
height `c` (0-based) and crossing counter `cc`. -/
def dtLetter (x idx : Nat) (st : List IntPair × Nat × Nat) :
    List IntPair × Nat × Nat :=
  let (n, c, cc) := st
  if x = c ∨ x = c + 1 then
    let rec0 := (n.getD idx ⟨0, 0, false⟩)
    let rec1 :=
      if cc % 2 = 1 then { rec0 with o := cc } else { rec0 with e := cc }
    let rec2 := { rec1 with s := (decide (¬ cc % 2 = 1) = decide (¬ x = c + 1)) }
    let n' := setRec n idx rec2
    if x = c + 1 then (n', c + 1, cc + 1) else (n', c - 1, cc + 1)
  else (n, c, cc)

/-- One full pass of `printDT`'s traversal over the word. -/
def dtPass (v : List Nat) (st : List IntPair × Nat × Nat) :
    List IntPair × Nat × Nat :=
  (v.foldl (fun (s : (List IntPair × Nat × Nat) × Nat) x =>
      (dtLetter x s.2 s.1, s.2 + 1)) (st, 0)).1

/-- The `do … while (c != 0)` loop of `printDT` (lines 63–79), with fuel.
Returns the final record table and the number of passes, or `none` when
the fuel runs out (the caller supplies enough fuel for valid words). -/
def dtLoop (v : List Nat) : Nat → (List IntPair × Nat × Nat) → Nat →
    Option (List IntPair × Nat)
  | 0, _, _ => none
  | fuel + 1, st, passed =>
    let st' := dtPass v st
    if st'.2.1 = 0 then some (st'.1, passed + 1)
    else dtLoop v fuel st' (passed + 1)

/-- Insertion into a list of records sorted by the `o` field. -/
def insertByO (r : IntPair) : List IntPair → List IntPair
  | [] => [r]
  | x :: xs => if r.o < x.o then r :: x :: xs else x :: insertByO r xs

/-- Sorting by the `o` field: models `std::sort` with comparator `o <`
(line 82); the `o` keys are pairwise distinct whenever the table is read. -/
def sortByO : List IntPair → List IntPair
  | [] => []
  | x :: xs => insertByO x (sortByO xs)

/-- `printDT` from `lb.C` (lines 55–93): the DT code of the closure of `v`
as a list of signed integers, or `none` when the pass count differs from
`max v + 1` (the C++ `passed != maxGen + 2` check, line 80, which makes
the function return `false` without printing).  The `counter` argument
only appears in the printed line, never in the code itself. -/
def printDT (v : List Nat) (counter : Nat) : Option (List Int) :=
  let maxGen := max v - 1
  match dtLoop v (max v + 2) (List.replicate v.length ⟨0, 0, false⟩, 0, 1) 0 with
  | none => none
  | some (n, passed) =>
    if passed ≠ maxGen + 2 then none
    else
      let dt := (sortByO n).map (fun r => (r.e : Int) * (if r.s then 1 else -1))
      some dt

/-- The final value of the `passed` counter of `printDT`'s traversal
(line 78), i.e. the number of full passes over the word; `none` when the
fuel given to the loop is not enough for the walk to return to strand 0. -/
def dtPasses (v : List Nat) : Option Nat :=
  match dtLoop v (max v + 2) (List.replicate v.length ⟨0, 0, false⟩, 0, 1) 0 with
  | none => none
  | some (_, passed) => some passed

/-- `printBraid` from `lb.C` (lines 95–101): generator `v` becomes the
character with code `v + 96` (`1 → a`, `2 → b`, …). -/
def printBraid (b : List Nat) : String :=
  String.mk (b.map (fun x => Char.ofNat (x + 96)))

/-- The mutable state of `listBraids` (lines 211–252): the braid word, the
emission counter, and the records printed so far (word, counter value at
emission, and the result of `printDT` — `none` when `printDT` bailed out,
a case the caller silently ignores). -/
structure SearchState where
  braid : List Nat
  counter : Nat
  output : List (List Nat × Nat × Option (List Int))
deriving Repr, DecidableEq

/-- One iteration of the driver loop of `listBraids` (lines 215–251):
backtrack when the last letter is too high, else increment on oracle
rejection, else deepen while below the bound, else emit and increment. -/
def stepState (maxB1 : Int) (s : SearchState) : SearchState :=
  if lastLetterTooHigh s.braid maxB1 then
    { s with braid := incLast s.braid.dropLast }
  else if completable s.braid maxB1 ≠ 15 then
    { s with braid := incLast s.braid }
  else if b1 s.braid < maxB1 then
    { s with braid := appendLetter s.braid }
  else
    { braid := incLast s.braid,
      counter := s.counter + 1,
      output := s.output ++
        [(s.braid, s.counter + 1, printDT s.braid (s.counter + 1))] }

/-- The driver loop `while (braid.size() > 1)`, iterated `fuel` times. -/
def runAux (maxB1 : Int) : Nat → SearchState → SearchState
  | 0, s => s
  | fuel + 1, s =>
    if 1 < s.braid.length then runAux maxB1 fuel (stepState maxB1 s)
    else s

/-- The initial state of `listBraids`: seed word `{1, 1}`, counter `0`. -/
def initState : SearchState := ⟨[1, 1], 0, []⟩

/-- `listBraids` from `lb.C` (lines 211–252), run for `fuel` iterations. -/
def listBraids (maxB1 : Int) (fuel : Nat) : SearchState :=
  runAux maxB1 fuel initState

/-- The braid words emitted within the first `fuel` iterations. -/
def emittedWords (maxB1 : Int) (fuel : Nat) : List (List Nat) :=
  (listBraids maxB1 fuel).output.map (·.1)

/-- `w` is emitted by the search driver run with bound `maxB1`. -/
def Emits (maxB1 : Int) (w : List Nat) : Prop :=
  ∃ fuel, w ∈ emittedWords maxB1 fuel

/-- `atoi` applied to the digits of a string: skips leading whitespace,
accepts one optional sign, then reads the longest digit prefix (empty
prefix yields `0`). -/
def atoiDigits : List Char → Int
  | [] => 0
  | c :: cs =>
    if c = ' ' ∨ c = '\t' ∨ c = '\n' then atoiDigits cs
    else
      let rec go : List Char → Nat → Nat
        | [], acc => acc
        | d :: ds, acc =>
          if d.isDigit then go ds (acc * 10 + (d.toNat - 48)) else acc
      if c = '-' then -(go cs 0 : Int)
      else if c = '+' then (go cs 0 : Int)
      else if c.isDigit then (go (c :: cs) 0 : Int)
      else 0

/-- `atoi` from the C standard library, as used by `main` (line 256). -/
def atoi (s : String) : Int := atoiDigits s.data

/-- The observable outcome of `main` (lines 254–262): the message printed
to the error stream, whether `listBraids` was invoked (and with which
bound), the search outcome, and the exit code (always `0`). -/
structure MainResult where
  stderrLine : String
  searchRan : Bool
  searchState : SearchState
  exitCode : Nat
deriving Repr

/-- `main` from `lb.C` (lines 254–262): with exactly one argument after
the program name it parses the genus with `atoi` and runs
`listBraids (2 * g)`; otherwise it prints the usage message.  Either way
it returns `0`. -/
def mainModel (argv : List String) (fuel : Nat) : MainResult :=
  if argv.length = 2 then
    let g := atoi (argv.getD 1 "")
    { stderrLine := "Working on genus " ++ toString g ++ ".\n",
      searchRan := true,
      searchState := listBraids (2 * g) fuel,
      exitCode := 0 }
  else
    { stderrLine := "One positive integer as parameter required.\n",
      searchRan := false,
      searchState := initState,
      exitCode := 0 }

/-- The word with 0-based position indices attached, in order: the event
list of one traversal pass. -/
def evPos (w : List Nat) : List (Nat × Nat) :=
  w.zip (List.range' 0 w.length)

/-- Process a list of (letter, position) events through the DT state. -/
def dtSeq (l : List (Nat × Nat)) (st : List IntPair × Nat × Nat) :
    List IntPair × Nat × Nat :=
  l.foldl (fun st e => dtLetter e.1 e.2 st) st

/-- `j` passes of the DT traversal. -/
def passIter (v : List Nat) : Nat → (List IntPair × Nat × Nat) →
    List IntPair × Nat × Nat
  | 0, st => st
  | j + 1, st => passIter v j (dtPass v st)

/-- The event list of `j` consecutive passes over the word. -/
def flatSched (w : List Nat) (j : Nat) : List (Nat × Nat) :=
  (List.replicate j (evPos w)).flatten

/-- The strand height after processing an event list from height `c`:
engaged events move the height exactly like the strand walk. -/
def cAfterEv : List (Nat × Nat) → Nat → Nat
  | [], c => c
  | (x, _) :: rest, c =>
    if x = c ∨ x = c + 1 then
      cAfterEv rest (if x = c + 1 then c + 1 else c - 1)
    else cAfterEv rest c

/-- The number of engaged events (crossing visits) in an event list
processed from height `c`. -/
def engCount : List (Nat × Nat) → Nat → Nat
  | [], _ => 0
  | (x, _) :: rest, c =>
    if x = c ∨ x = c + 1 then
      1 + engCount rest (if x = c + 1 then c + 1 else c - 1)
    else engCount rest c

/-- The record written for an engaged event: label `cc` goes into the
odd or even slot by parity, and the sign bit is set. -/
def dtRec (r : IntPair) (x c cc : Nat) : IntPair :=
  { (if cc % 2 = 1 then { r with o := cc } else { r with e := cc }) with
    s := (decide (¬ cc % 2 = 1) = decide (¬ x = c + 1)) }

/-- The crossing labels assigned to word position `p` while processing an
event list from height `c` with next label `cc`, in order. -/
def labelsAt : List (Nat × Nat) → Nat → Nat → Nat → List Nat
  | [], _, _, _ => []
  | (x, idx) :: rest, c, cc, p =>
    if x = c ∨ x = c + 1 then
      (if idx = p then [cc] else []) ++
        labelsAt rest (if x = c + 1 then c + 1 else c - 1) (cc + 1) p
    else labelsAt rest c cc p

/-- Applying the word backwards, letter by letter: the inverse walk. -/
def applyWordInv (b : List Nat) (p : Nat) : Nat :=
  b.foldr (fun x q => applyLetter x q) p

/-- The facts true of every word at the moment it is emitted. -/
def EmitP (m : Int) (w : List Nat) : Prop :=
  2 ≤ w.length ∧ (∀ x ∈ w, 1 ≤ x) ∧ lastLetterTooHigh w m = false ∧
    completable w m = 15 ∧ ¬ b1 w < m

/-- The state invariant of the driver loop: the braid word is nonempty
with entries `≥ 1`, and every emitted word satisfied all emission
guards. -/
def Inv (m : Int) (s : SearchState) : Prop :=
  s.braid ≠ [] ∧ (∀ x ∈ s.braid, 1 ≤ x) ∧ ∀ e ∈ s.output, EmitP m e.1

/-- The invariant of the termination argument: the first letter is `1`,
interior letters respect the adjacency cap, the last letter exceeds the
cap by at most one, and the word never grows longer than `L`. -/
def TermInv (L : Nat) (s : SearchState) : Prop :=
  s.braid ≠ [] ∧ (∀ x ∈ s.braid, 1 ≤ x) ∧
  (1 < s.braid.length →
    s.braid.getD 0 0 = 1 ∧
    s.braid.length ≤ L ∧
    (∀ j, 1 ≤ j → j + 1 < s.braid.length →
      s.braid.getD j 0 ≤ 1 + maxElem (s.braid.take j)) ∧
    s.braid.getD (s.braid.length - 1) 0 ≤ 2 + maxElem s.braid.dropLast)

/-- A positional weight of the braid word: letter `x` at position `j`
contributes `x * E ^ (cap - j)`; every driver transition strictly
increases it. -/
def nuFrom (E cap : Nat) : List Nat → Nat → Nat
  | [], _ => 0
  | x :: t, j => x * E ^ (cap - j) + nuFrom E cap t (j + 1)

end LB

namespace LB

/-! ## Basic lemmas about the driver loop -/

theorem runAux_succ (m : Int) (n : Nat) (s : SearchState) :
    runAux m (n + 1) s =
      if 1 < s.braid.length then runAux m n (stepState m s) else s := rfl

theorem runAux_halted (m : Int) (n : Nat) (s : SearchState)
    (h : ¬ 1 < s.braid.length) : runAux m n s = s := by
  cases n with
  | zero => rfl
  | succ n => rw [runAux_succ, if_neg h]

theorem runAux_add (m : Int) (a b : Nat) (s : SearchState) :
    runAux m (a + b) s = runAux m b (runAux m a s) := by
  induction a generalizing s with
  | zero => rw [Nat.zero_add]; rfl
  | succ a ih =>
    by_cases h : 1 < s.braid.length
    · rw [Nat.succ_add, runAux_succ, if_pos h, ih, runAux_succ, if_pos h]
    · rw [Nat.succ_add, runAux_succ, if_neg h, runAux_succ, if_neg h,
        runAux_halted m b s h]

theorem stepState_output_mono (m : Int) (s : SearchState) :
    ∃ t, (stepState m s).output = s.output ++ t := by
  unfold stepState
  split_ifs
  · exact ⟨[], by simp⟩
  · exact ⟨[], by simp⟩
  · exact ⟨[], by simp⟩
  · exact ⟨_, rfl⟩

theorem runAux_output_mono (m : Int) (n : Nat) (s : SearchState) :
    ∃ t, (runAux m n s).output = s.output ++ t := by
  induction n generalizing s with
  | zero => exact ⟨[], by simp [runAux]⟩
  | succ n ih =>
    rw [runAux_succ]
    by_cases h : 1 < s.braid.length
    · rw [if_pos h]
      obtain ⟨t1, h1⟩ := stepState_output_mono m s
      obtain ⟨t2, h2⟩ := ih (stepState m s)
      exact ⟨t1 ++ t2, by rw [h2, h1, List.append_assoc]⟩
    · rw [if_neg h]; exact ⟨[], by simp⟩

/-- Once the loop has halted (braid length `≤ 1`) at some fuel `F`, the
emitted words of any run are those of the run with fuel `F`. -/
theorem emits_iff_mem_of_halted {m : Int} {F : Nat}
    (h : ¬ 1 < (runAux m F initState).braid.length) (w : List Nat) :
    Emits m w ↔ w ∈ emittedWords m F := by
  constructor
  · rintro ⟨f, hf⟩
    rcases Nat.le_total f F with hle | hle
    · obtain ⟨k, rfl⟩ := Nat.le.dest hle
      unfold emittedWords listBraids at *
      rw [runAux_add]
      obtain ⟨t, ht⟩ := runAux_output_mono m k (runAux m f initState)
      rw [ht]
      simp only [List.map_append, List.mem_append]
      exact Or.inl hf
    · obtain ⟨k, rfl⟩ := Nat.le.dest hle
      unfold emittedWords listBraids at *
      rw [runAux_add, runAux_halted _ _ _ h] at hf
      exact hf
  · exact fun hw => ⟨F, hw⟩

/-! ## Entry invariants -/

theorem mem_of_mem_dropLast {l : List Nat} {x : Nat}
    (h : x ∈ l.dropLast) : x ∈ l := by
  induction l with
  | nil => simpa using h
  | cons a t ih =>
    cases t with
    | nil => simpa using h
    | cons b u =>
      rcases List.mem_cons.mp h with rfl | h
      · exact List.mem_cons_self _ _
      · exact List.mem_cons_of_mem _ (ih h)

theorem getLastD_mem : ∀ (l : List Nat) (d : Nat), l ≠ [] → l.getLastD d ∈ l
  | [], _, h => absurd rfl h
  | a :: t, d, _ => by
    rw [List.getLastD_cons]
    cases t with
    | nil => simp [List.getLastD]
    | cons b u =>
      exact List.mem_cons_of_mem _ (getLastD_mem (b :: u) a (by simp))

theorem incLast_ne_nil (b : List Nat) : incLast b ≠ [] := by
  simp [incLast]

theorem incLast_entries {b : List Nat} (h : ∀ x ∈ b, 1 ≤ x) :
    ∀ x ∈ incLast b, 1 ≤ x := by
  intro x hx
  rw [incLast, List.mem_append] at hx
  rcases hx with hx | hx
  · exact h x (mem_of_mem_dropLast hx)
  · simp at hx; omega

theorem appendLetter_ne_nil (b : List Nat) : appendLetter b ≠ [] := by
  simp [appendLetter]

theorem appendLetter_entries {b : List Nat} (hne : b ≠ [])
    (h : ∀ x ∈ b, 1 ≤ x) : ∀ x ∈ appendLetter b, 1 ≤ x := by
  intro x hx
  rw [appendLetter, List.mem_append] at hx
  rcases hx with hx | hx
  · exact h x hx
  · have h1 : 1 ≤ b.getLastD 0 := h _ (getLastD_mem b 0 hne)
    simp only [List.mem_singleton] at hx
    by_cases hc : b.getLastD 0 = 1
    · rw [hc] at hx; simp at hx; omega
    · rw [if_neg hc] at hx; omega

theorem stepState_inv {m : Int} {s : SearchState}
    (h1 : 1 < s.braid.length) (hI : Inv m s) : Inv m (stepState m s) := by
  obtain ⟨hne, hent, hout⟩ := hI
  unfold stepState
  split_ifs with hth hc hb
  · exact ⟨incLast_ne_nil _,
      incLast_entries (fun x hx => hent x (mem_of_mem_dropLast hx)), hout⟩
  · exact ⟨incLast_ne_nil _, incLast_entries hent, hout⟩
  · exact ⟨appendLetter_ne_nil _, appendLetter_entries hne hent, hout⟩
  · refine ⟨incLast_ne_nil _, incLast_entries hent, ?_⟩
    intro e he
    rcases List.mem_append.mp he with he | he
    · exact hout e he
    · simp only [List.mem_singleton] at he
      subst he
      exact ⟨h1, hent, Bool.not_eq_true _ ▸ eq_false_of_ne_true hth,
        not_not.mp hc, hb⟩

theorem inv_runAux (m : Int) (n : Nat) (s : SearchState) (hI : Inv m s) :
    Inv m (runAux m n s) := by
  induction n generalizing s with
  | zero => exact hI
  | succ n ih =>
    rw [runAux_succ]
    by_cases h : 1 < s.braid.length
    · rw [if_pos h]; exact ih _ (stepState_inv h hI)
    · rw [if_neg h]; exact hI

theorem inv_initState (m : Int) : Inv m initState := by
  refine ⟨by simp [initState], ?_, by simp [initState]⟩
  intro x hx
  simp [initState] at hx
  omega

theorem emits_emitP {m : Int} {w : List Nat} (h : Emits m w) : EmitP m w := by
  obtain ⟨f, hf⟩ := h
  unfold emittedWords listBraids at hf
  obtain ⟨e, he, heq⟩ := List.mem_map.mp hf
  have := (inv_runAux m f initState (inv_initState m)).2.2 e he
  rwa [heq] at this

/-! ## Decomposition of the completability mask -/

theorem completable_eq_15 {b : List Nat} {m : Int}
    (h : completable b m = 15) :
    (numberOfComponents b : Int) - (m - b1 b) ≤ 1 ∧
    (missingCrossingsForPrimality b : Int) ≤ m - b1 b ∧
    lexicoGood b = true ∧ reidemeister b = true := by
  unfold completable at h
  split_ifs at h with h1 h2 h3 h4 <;>
    first
      | exact ⟨h1, h2, h3, h4⟩
      | omega

theorem counter_le_compFold (b : List Nat) (sz : Nat) (l : List Nat)
    (st : List Nat × Nat) : st.2 ≤ (l.foldl (compStep b sz) st).2 := by
  induction l generalizing st with
  | nil => exact Nat.le_refl _
  | cons i t ih =>
    refine Nat.le_trans ?_ (ih (compStep b sz st i))
    unfold compStep
    split_ifs
    · exact Nat.le_succ _
    · exact Nat.le_refl _

theorem numberOfComponents_pos {b : List Nat} (h : b ≠ []) :
    1 ≤ numberOfComponents b := by
  unfold numberOfComponents
  rw [if_neg h, List.range_succ_eq_map, List.foldl_cons]
  have h0 : compStep b (max b + 1) (List.replicate (max b + 1) 0, 0) 0
      = (markCycle b (max b + 1 + 1) (List.replicate (max b + 1) 0) 0 1, 1) := by
    unfold compStep
    rw [if_pos]
    simp [List.replicate_succ]
  rw [h0]
  exact counter_le_compFold b (max b + 1)
    (List.map Nat.succ (List.range (max b)))
    (markCycle b (max b + 1 + 1) (List.replicate (max b + 1) 0) 0 1, 1)

theorem emits_components_eq_one_and_b1 {m : Int} {w : List Nat}
    (h : Emits m w) : numberOfComponents w = 1 ∧ b1 w = m := by
  obtain ⟨hlen, hent, hth, hc, hb⟩ := emits_emitP h
  obtain ⟨h1, _, _, _⟩ := completable_eq_15 hc
  have hne : w ≠ [] := by
    intro e; rw [e] at hlen; simp at hlen
  have hpos := numberOfComponents_pos hne
  omega

end LB

namespace LB

set_option maxRecDepth 1000000

/-! ## Claims C1, C2, C3, C9 -/

/-- C1 (amended): every word emitted by the search driver passes the
source's canonical-form test `lexicoGood`, which compares every proper
suffix with the prefix of the same length; this is weaker than full
lexicographic minimality among cyclic rotations. -/
theorem claim_C1 (maxB1 : Int) (w : List Nat) (h : Emits maxB1 w) :
    lexicoGood w = true :=
  (completable_eq_15 (emits_emitP h).2.2.2.1).2.2.1

theorem claim_C1_witness : Emits 2 [1, 1, 1] ∧ lexicoGood [1, 1, 1] = true :=
  ⟨⟨14, by decide⟩, claim_C1 2 [1, 1, 1] ⟨14, by decide⟩⟩

/-- C1 counterexample: the run with bound `maxB1 = 6` emits the word
`[1,1,2,1,1,2,2,1]`, whose cyclic rotation starting at position 7,
`[1,1,1,2,1,1,2,2]`, is lexicographically strictly smaller — the emitted
word is not the lexicographic minimum among its cyclic rotations. -/
theorem claim_C1_counterexample :
    Emits 6 [1, 1, 2, 1, 1, 2, 2, 1] ∧
    ([1, 1, 2, 1, 1, 2, 2, 1].drop 7 ++ [1, 1, 2, 1, 1, 2, 2, 1].take 7
        = [1, 1, 1, 2, 1, 1, 2, 2]) ∧
    lexLt [1, 1, 1, 2, 1, 1, 2, 2] [1, 1, 2, 1, 1, 2, 2, 1] = true :=
  ⟨⟨192, by decide⟩, by decide, by decide⟩

/-- C2: every word emitted by the driver run with bound `maxB1` closes to
a single component and has first Betti number exactly `maxB1`. -/
theorem claim_C2 (maxB1 : Int) (w : List Nat) (h : Emits maxB1 w) :
    numberOfComponents w = 1 ∧ b1 w = maxB1 :=
  emits_components_eq_one_and_b1 h

theorem claim_C2_witness :
    Emits 2 [1, 1, 1] ∧
    (numberOfComponents [1, 1, 1] = 1 ∧ b1 [1, 1, 1] = 2) :=
  ⟨⟨14, by decide⟩, claim_C2 2 [1, 1, 1] ⟨14, by decide⟩⟩

/-- C3: the run with `maxB1 = 2` (genus 1) emits exactly one braid word,
`[1,1,1]`, rendered by `printBraid` as the string `aaa`. -/
theorem claim_C3 :
    (∀ w, Emits 2 w ↔ w = [1, 1, 1]) ∧ printBraid [1, 1, 1] = "aaa" := by
  have hhalt : ¬ 1 < (runAux 2 14 initState).braid.length := by decide
  have hlist : emittedWords 2 14 = [[1, 1, 1]] := by decide
  refine ⟨fun w => ?_, by decide⟩
  rw [emits_iff_mem_of_halted hhalt, hlist]
  simp

theorem claim_C3_witness : Emits 2 [1, 1, 1] :=
  (claim_C3.1 [1, 1, 1]).mpr rfl

/-- C9: at every point of the search (each loop-top state reached from
the seed after any number of driver transitions), the braid word is
nonempty and every entry is `≥ 1`. -/
theorem claim_C9 (maxB1 : Int) (n : Nat) :
    (runAux maxB1 n initState).braid ≠ [] ∧
    ∀ x ∈ (runAux maxB1 n initState).braid, 1 ≤ x := by
  have h := inv_runAux maxB1 n initState (inv_initState maxB1)
  exact ⟨h.1, h.2.1⟩

theorem claim_C9_witness :
    (runAux 2 3 initState).braid ≠ [] ∧
    ∀ x ∈ (runAux 2 3 initState).braid, 1 ≤ x :=
  claim_C9 2 3

end LB

namespace LB

/-! ## Twist regions and the primality counter: generator coverage -/

theorem twistStep_pos (i j : Nat) (last : Int) (tr : Nat)
    (h : (j = i ∨ j = i + 1) ∧ (j : Int) ≠ last) :
    twistStep i (last, tr) j = ((j : Int), tr + 1) := by
  unfold twistStep
  exact if_pos h

theorem twistStep_neg (i j : Nat) (last : Int) (tr : Nat)
    (h : ¬ ((j = i ∨ j = i + 1) ∧ (j : Int) ≠ last)) :
    twistStep i (last, tr) j = (last, tr) := by
  unfold twistStep
  exact if_neg h

theorem twistFold_le_right (i : Nat) (b : List Nat) :
    ∀ (last : Int) (tr : Nat),
    (b.foldl (twistStep i) (last, tr)).2 ≤
      tr + 2 * b.count (i + 1) + (if last = (i : Int) then 0 else 1) := by
  induction b with
  | nil =>
    intro last tr
    simp only [List.foldl_nil, List.count_nil]
    split_ifs <;> omega
  | cons x rest ih =>
    intro last tr
    rw [List.foldl_cons]
    by_cases hc : (x = i ∨ x = i + 1) ∧ (x : Int) ≠ last
    · rw [twistStep_pos i x last tr hc]
      rcases hc with ⟨hx | hx, hne⟩
      · subst hx
        have h2 := ih (x : Int) (tr + 1)
        have hcnt : (x :: rest).count (x + 1) = rest.count (x + 1) := by
          rw [List.count_cons]
          simp
        rw [hcnt]
        have hz : (if (x : Int) = (x : Int) then (0 : Nat) else 1) = 0 := by simp
        rw [hz] at h2
        have hlast : ¬ last = (x : Int) := fun h => hne h.symm
        rw [if_neg hlast]
        omega
      · subst hx
        have h2 := ih ((i + 1 : Nat) : Int) (tr + 1)
        have hcnt : ((i + 1) :: rest).count (i + 1) = rest.count (i + 1) + 1 := by
          rw [List.count_cons]
          simp
        rw [hcnt]
        have hne2 : ¬ ((i + 1 : Nat) : Int) = (i : Int) := by
          simp only [Int.natCast_inj]
          omega
        rw [if_neg hne2] at h2
        split_ifs <;> omega
    · rw [twistStep_neg i x last tr hc]
      have h2 := ih last tr
      have hcnt : rest.count (i + 1) ≤ (x :: rest).count (i + 1) := by
        rw [List.count_cons]
        split_ifs <;> omega
      split_ifs at h2 ⊢ <;> omega

theorem twistFold_le_left (i : Nat) (b : List Nat) :
    ∀ (last : Int) (tr : Nat),
    (b.foldl (twistStep i) (last, tr)).2 ≤
      tr + 2 * b.count i + (if last = ((i + 1 : Nat) : Int) then 0 else 1) := by
  induction b with
  | nil =>
    intro last tr
    simp only [List.foldl_nil, List.count_nil]
    split_ifs <;> omega
  | cons x rest ih =>
    intro last tr
    rw [List.foldl_cons]
    by_cases hc : (x = i ∨ x = i + 1) ∧ (x : Int) ≠ last
    · rw [twistStep_pos i x last tr hc]
      rcases hc with ⟨hx | hx, hne⟩
      · subst hx
        have h2 := ih (x : Int) (tr + 1)
        have hcnt : (x :: rest).count x = rest.count x + 1 := by
          rw [List.count_cons]
          simp
        rw [hcnt]
        have hne2 : ¬ (x : Int) = ((x + 1 : Nat) : Int) := by
          simp only [Int.natCast_inj]
          omega
        rw [if_neg hne2] at h2
        split_ifs <;> omega
      · subst hx
        have h2 := ih ((i + 1 : Nat) : Int) (tr + 1)
        have hcnt : ((i + 1) :: rest).count i = rest.count i := by
          rw [List.count_cons]
          simp
        rw [hcnt]
        have hz : (if ((i + 1 : Nat) : Int) = ((i + 1 : Nat) : Int)
            then (0 : Nat) else 1) = 0 := by simp
        rw [hz] at h2
        have hlast : ¬ last = ((i + 1 : Nat) : Int) := fun h => hne h.symm
        rw [if_neg hlast]
        omega
    · rw [twistStep_neg i x last tr hc]
      have h2 := ih last tr
      have hcnt : rest.count i ≤ (x :: rest).count i := by
        rw [List.count_cons]
        split_ifs <;> omega
      split_ifs at h2 ⊢ <;> omega

theorem twistRegions_le_count_succ (b : List Nat) (i : Nat) :
    twistRegions b i ≤ 2 * b.count (i + 1) + 1 := by
  have h := twistFold_le_right i b (-1) 0
  have hne : ¬ (-1 : Int) = (i : Int) := by omega
  rw [if_neg hne] at h
  unfold twistRegions
  omega

theorem twistRegions_le_count (b : List Nat) (i : Nat) :
    twistRegions b i ≤ 2 * b.count i + 1 := by
  have h := twistFold_le_left i b (-1) 0
  have hne : ¬ (-1 : Int) = ((i + 1 : Nat) : Int) := by omega
  rw [if_neg hne] at h
  unfold twistRegions
  omega

end LB

namespace LB

/-! ## The missing-crossing table -/

theorem setNth_length (l : List Nat) (i v : Nat) :
    (setNth l i v).length = l.length := by
  induction l generalizing i with
  | nil => rfl
  | cons a t ih =>
    cases i with
    | zero => rfl
    | succ i => simp [setNth, ih]

theorem getD_irrel : ∀ (l : List Nat) (i : Nat), i < l.length →
    ∀ (d d' : Nat), l.getD i d = l.getD i d'
  | [], i, h, _, _ => by simp at h
  | a :: t, 0, _, d, d' => rfl
  | a :: t, i + 1, h, d, d' => by
    simp only [List.getD_cons_succ]
    exact getD_irrel t i (by simpa using h) d d'

theorem getD_default_of_ge : ∀ (l : List Nat) (i : Nat), l.length ≤ i →
    ∀ (d : Nat), l.getD i d = d
  | [], _, _, _ => rfl
  | a :: t, 0, h, d => by simp at h
  | a :: t, i + 1, h, d => by
    simp only [List.getD_cons_succ]
    exact getD_default_of_ge t i (by simpa using h) d

theorem getD_setNth_self : ∀ (l : List Nat) (i v : Nat), i < l.length →
    ∀ (d : Nat), (setNth l i v).getD i d = v
  | [], i, v, h, _ => by simp at h
  | a :: t, 0, v, _, d => rfl
  | a :: t, i + 1, v, h, d => by
    simp only [setNth, List.getD_cons_succ]
    exact getD_setNth_self t i v (by simpa using h) d

theorem getD_setNth_ne : ∀ (l : List Nat) (i k v : Nat), k ≠ i →
    ∀ (d : Nat), (setNth l i v).getD k d = l.getD k d
  | [], _, _, _, _, _ => rfl
  | a :: t, 0, 0, v, h, _ => absurd rfl h
  | a :: t, 0, k + 1, v, _, d => rfl
  | a :: t, i + 1, 0, v, _, d => rfl
  | a :: t, i + 1, k + 1, v, h, d => by
    simp only [setNth, List.getD_cons_succ]
    exact getD_setNth_ne t i k v (fun e => h (by rw [e])) d

theorem missingStep_length (b : List Nat) (m : List Nat) (i : Nat) :
    (missingStep b m i).length = m.length := by
  simp only [missingStep]
  split_ifs <;> simp [setNth_length]

theorem condSet_getD_mono (m : List Nat) (i j : Nat)
    (h : m.getD i 1 = 0) : m.getD j 0 ≤ (setNth m i 1).getD j 0 := by
  have hlt : i < m.length := by
    by_contra hge
    rw [getD_default_of_ge m i (by omega) 1] at h
    omega
  by_cases hji : j = i
  · subst hji
    rw [getD_setNth_self m j 1 hlt 0, getD_irrel m j hlt 0 1, h]
    omega
  · rw [getD_setNth_ne m i j 1 hji 0]

theorem missingStep_getD_mono (b : List Nat) (m : List Nat) (i j : Nat) :
    m.getD j 0 ≤ (missingStep b m i).getD j 0 := by
  simp only [missingStep]
  split_ifs with h1 h2 h2
  · exact Nat.le_trans (condSet_getD_mono m (i - 1) j h1.2)
      (condSet_getD_mono _ i j h2.2)
  · exact condSet_getD_mono m (i - 1) j h1.2
  · exact condSet_getD_mono m i j h2.2
  · exact Nat.le_refl _

theorem missingStep_sets (b : List Nat) (m : List Nat) (i : Nat)
    (ht : twistRegions b i < 4) (hi : i < m.length) :
    1 ≤ (missingStep b m i).getD i 0 := by
  simp only [missingStep]
  split_ifs with h1 h2 h2
  · rw [getD_setNth_self _ i 1 (by rw [setNth_length]; exact hi) 0]
  · -- the second guard failed although `t < 4`: the cell is already nonzero
    rw [not_and] at h2
    have hnz := h2 ht
    have hlen1 : i < (setNth m (i - 1) 1).length := by
      rw [setNth_length]; exact hi
    rw [getD_irrel _ i hlen1 0 1]
    omega
  · rw [getD_setNth_self _ i 1 hi 0]
  · rw [not_and] at h2
    have hnz := h2 ht
    rw [getD_irrel m i hi 0 1]
    omega

theorem foldMissing_length (b : List Nat) (l : List Nat) (m : List Nat) :
    (l.foldl (missingStep b) m).length = m.length := by
  induction l generalizing m with
  | nil => rfl
  | cons a t ih => rw [List.foldl_cons, ih, missingStep_length]

theorem foldMissing_getD_mono (b : List Nat) (l : List Nat) (m : List Nat)
    (j : Nat) : m.getD j 0 ≤ (l.foldl (missingStep b) m).getD j 0 := by
  induction l generalizing m with
  | nil => exact Nat.le_refl _
  | cons a t ih =>
    exact Nat.le_trans (missingStep_getD_mono b m a j) (ih _)

theorem foldMissing_sets (b : List Nat) (l : List Nat) :
    ∀ (m : List Nat) (i : Nat), i ∈ l → twistRegions b i < 4 →
    i < m.length → 1 ≤ (l.foldl (missingStep b) m).getD i 0 := by
  induction l with
  | nil =>
    intro m i hi _ _
    simp at hi
  | cons a t ih =>
    intro m i hi ht hlen
    rw [List.foldl_cons]
    rcases List.mem_cons.mp hi with rfl | hmem
    · exact Nat.le_trans (missingStep_sets b m i ht hlen)
        (foldMissing_getD_mono b t _ i)
    · exact ih _ i hmem ht (by rw [missingStep_length]; exact hlen)

theorem foldl_add_init (t : List Nat) (n : Nat) :
    t.foldl (· + ·) n = n + t.foldl (· + ·) 0 := by
  induction t generalizing n with
  | nil => simp
  | cons x rest ih =>
    rw [List.foldl_cons, List.foldl_cons, ih (n + x), ih (0 + x)]
    omega

theorem sum_cons (a : Nat) (t : List Nat) : sum (a :: t) = a + sum t := by
  unfold sum
  rw [List.foldl_cons, foldl_add_init]
  omega

theorem getD_le_sum : ∀ (l : List Nat) (i : Nat), l.getD i 0 ≤ sum l
  | [], i => by simp [sum]
  | a :: t, 0 => by rw [sum_cons]; simp
  | a :: t, i + 1 => by
    rw [sum_cons]
    simp only [List.getD_cons_succ]
    exact Nat.le_trans (getD_le_sum t i) (by omega)

/-! ## Facts about `max` and counts -/

theorem foldl_max_init_le (b : List Nat) :
    ∀ r, r ≤ b.foldl (fun r x => if x > r then x else r) r := by
  induction b with
  | nil => exact fun r => Nat.le_refl r
  | cons a t ih =>
    intro r
    rw [List.foldl_cons]
    refine Nat.le_trans ?_ (ih _)
    split_ifs with h
    · omega
    · exact Nat.le_refl r

theorem le_foldl_max_of_mem {x : Nat} {b : List Nat} (h : x ∈ b) :
    ∀ r, x ≤ b.foldl (fun r x => if x > r then x else r) r := by
  induction b with
  | nil => simp at h
  | cons a t ih =>
    intro r
    rw [List.foldl_cons]
    rcases List.mem_cons.mp h with rfl | h
    · refine Nat.le_trans ?_ (foldl_max_init_le t _)
      split_ifs with hgt <;> omega
    · exact ih h _

theorem le_max_of_mem {x : Nat} {b : List Nat} (h : x ∈ b) : x ≤ max b :=
  le_foldl_max_of_mem h 1

theorem one_le_max (b : List Nat) : 1 ≤ max b :=
  foldl_max_init_le b 1

theorem one_le_count_of_mem {x : Nat} : ∀ {l : List Nat}, x ∈ l →
    1 ≤ l.count x := by
  intro l h
  induction l with
  | nil => simp at h
  | cons a t ih =>
    rw [List.count_cons]
    rcases List.mem_cons.mp h with rfl | h
    · simp
    · have := ih h
      split_ifs <;> omega

theorem count_eq_length_of_all {g : Nat} : ∀ {l : List Nat},
    (∀ x ∈ l, x = g) → l.count g = l.length := by
  intro l h
  induction l with
  | nil => rfl
  | cons a t ih =>
    rw [List.count_cons, ih (fun x hx => h x (List.mem_cons_of_mem a hx))]
    have := h a (List.mem_cons_self a t)
    simp [this]

/-! ## Claim C7: generator coverage -/

theorem emits_missing_eq_zero {maxB1 : Int} {w : List Nat}
    (h : Emits maxB1 w) : missingCrossingsForPrimality w = 0 := by
  have hc := (emits_emitP h).2.2.2.1
  have hb1 : b1 w = maxB1 := (emits_components_eq_one_and_b1 h).2
  have h2 := (completable_eq_15 hc).2.1
  omega

/-- C7: every generator value appearing in an emitted word appears in it
at least twice. -/
theorem claim_C7 (maxB1 : Int) (w : List Nat) (h : Emits maxB1 w) :
    ∀ g ∈ w, 2 ≤ w.count g := by
  obtain ⟨hlen, hent, _, _, _⟩ := emits_emitP h
  have hmiss0 := emits_missing_eq_zero h
  intro g hg
  by_contra hcnt
  have hg1 : 1 ≤ w.count g := one_le_count_of_mem hg
  have hcnt1 : w.count g = 1 := by omega
  have hgmax : g ≤ max w := le_max_of_mem hg
  have hg_ge : 1 ≤ g := hent g hg
  unfold missingCrossingsForPrimality at hmiss0
  by_cases hgm : g = 1
  · subst hgm
    by_cases hmw : 2 ≤ max w
    · have ht : twistRegions w 1 < 4 := by
        have h4 := twistRegions_le_count w 1
        omega
      have hmem : 1 ∈ List.range' 1 (max w - 1) := by
        rw [List.mem_range'_1]
        omega
      have hset := foldMissing_sets w (List.range' 1 (max w - 1))
        (List.replicate (max w) 0) 1 hmem ht
        (by rw [List.length_replicate]; omega)
      have hsum := getD_le_sum
        ((List.range' 1 (max w - 1)).foldl (missingStep w)
          (List.replicate (max w) 0)) 1
      omega
    · have hmw1 : max w = 1 := by
        have := one_le_max w
        omega
      have hall : ∀ x ∈ w, x = 1 := by
        intro x hx
        have h1 := hent x hx
        have h2 := le_max_of_mem hx
        omega
      have := count_eq_length_of_all hall
      omega
  · have ht : twistRegions w (g - 1) < 4 := by
      have h4 := twistRegions_le_count_succ w (g - 1)
      have hform : g - 1 + 1 = g := by omega
      rw [hform] at h4
      omega
    have hmem : g - 1 ∈ List.range' 1 (max w - 1) := by
      rw [List.mem_range'_1]
      omega
    have hset := foldMissing_sets w (List.range' 1 (max w - 1))
      (List.replicate (max w) 0) (g - 1) hmem ht
      (by rw [List.length_replicate]; omega)
    have hsum := getD_le_sum
      ((List.range' 1 (max w - 1)).foldl (missingStep w)
        (List.replicate (max w) 0)) (g - 1)
    omega

theorem claim_C7_witness :
    Emits 2 [1, 1, 1] ∧ 1 ∈ ([1, 1, 1] : List Nat) ∧
    2 ≤ ([1, 1, 1] : List Nat).count 1 :=
  ⟨⟨14, by decide⟩, by decide,
    claim_C7 2 [1, 1, 1] ⟨14, by decide⟩ 1 (by decide)⟩

end LB

namespace LB

/-! ## Claim C4: the pass-count check of `printDT` -/

theorem printDT_none_iff (v : List Nat) (c : Nat) :
    printDT v c = none ↔ dtPasses v ≠ some (max v + 1) := by
  unfold printDT dtPasses
  have hmg : max v - 1 + 2 = max v + 1 := by
    have := one_le_max v
    omega
  cases hdt : dtLoop v (max v + 2)
      (List.replicate v.length ⟨0, 0, false⟩, 0, 1) 0 with
  | none => simp
  | some pr =>
    rcases pr with ⟨n, passed⟩
    dsimp only
    rw [hmg]
    by_cases hp : passed = max v + 1
    · subst hp
      rw [if_neg (by omega)]
      simp
    · rw [if_pos hp]
      simp [hp]

theorem stepState_emit (m : Int) (s : SearchState)
    (h1 : lastLetterTooHigh s.braid m = false)
    (h2 : completable s.braid m = 15) (h3 : ¬ b1 s.braid < m) :
    stepState m s =
      { braid := incLast s.braid, counter := s.counter + 1,
        output := s.output ++
          [(s.braid, s.counter + 1, printDT s.braid (s.counter + 1))] } := by
  unfold stepState
  rw [if_neg (by simp [h1]), if_neg (by simp [h2]), if_neg h3]

/-- C4 (amended): `printDT` compares the pass count of its traversal with
`max v + 1` — the strand count, not the strand count plus one — and on a
mismatch merely returns `none` (C++ `false`) without printing a DT line;
the emission step of the driver records whatever `printDT` returned and
continues with the incremented word, never aborting on failure. -/
theorem claim_C4 :
    (∀ (v : List Nat) (c : Nat),
      printDT v c = none ↔ dtPasses v ≠ some (max v + 1)) ∧
    (∀ (m : Int) (s : SearchState),
      lastLetterTooHigh s.braid m = false → completable s.braid m = 15 →
      ¬ b1 s.braid < m →
      stepState m s =
        { braid := incLast s.braid, counter := s.counter + 1,
          output := s.output ++
            [(s.braid, s.counter + 1, printDT s.braid (s.counter + 1))] }) :=
  ⟨printDT_none_iff, stepState_emit⟩

theorem claim_C4_witness :
    printDT [1, 1] 1 = none ∧
    stepState 2 ⟨[1, 1, 1], 0, []⟩ =
      ⟨[1, 1, 2], 1, [([1, 1, 1], 1, some [4, 6, 2])]⟩ := by
  constructor
  · exact (claim_C4.1 [1, 1] 1).mpr (by decide)
  · rw [claim_C4.2 2 ⟨[1, 1, 1], 0, []⟩ (by decide) (by decide) (by decide)]
    decide

/-- C4 counterexample: for the word `[1,1,1]` emitted by the `maxB1 = 2`
run, the traversal makes `2` passes, which differs from
`strands + 1 = 3`; yet `printDT` succeeds, prints the DT line, and the
run completes normally — no input-contract violation is raised for a
pass count different from `strands + 1`. -/
theorem claim_C4_counterexample :
    dtPasses [1, 1, 1] = some 2 ∧ 2 ≠ (max [1, 1, 1] + 1) + 1 ∧
    printDT [1, 1, 1] 1 = some [4, 6, 2] ∧
    Emits 2 [1, 1, 1] ∧
    ¬ 1 < (runAux 2 14 initState).braid.length ∧
    (runAux 2 14 initState).output = [([1, 1, 1], 1, some [4, 6, 2])] :=
  ⟨by decide, by decide, by decide, ⟨14, by decide⟩, by decide, by decide⟩

/-! ## Claim C5: command-line handling -/

/-- C5 (amended): with a missing argument (`argc ≠ 2`) `main` prints the
usage message on the error stream, runs no search, and exits with code
`0`; with a *non-numeric* argument, `atoi` yields `0` and `main` does run
the (empty) genus-`0` search, reporting `Working on genus 0.` and exiting
with code `0`. -/
theorem claim_C5 :
    (∀ (argv : List String) (fuel : Nat), argv.length ≠ 2 →
      (mainModel argv fuel).stderrLine =
          "One positive integer as parameter required.\n" ∧
        (mainModel argv fuel).searchRan = false ∧
        (mainModel argv fuel).exitCode = 0) ∧
    (∀ (argv : List String) (fuel : Nat), argv.length = 2 →
      (mainModel argv fuel).stderrLine =
          "Working on genus " ++ toString (atoi (argv.getD 1 "")) ++ ".\n" ∧
        (mainModel argv fuel).searchRan = true ∧
        (mainModel argv fuel).searchState =
          listBraids (2 * atoi (argv.getD 1 "")) fuel ∧
        (mainModel argv fuel).exitCode = 0) := by
  constructor
  · intro argv fuel h
    unfold mainModel
    rw [if_neg h]
    exact ⟨rfl, rfl, rfl⟩
  · intro argv fuel h
    unfold mainModel
    rw [if_pos h]
    exact ⟨rfl, rfl, rfl, rfl⟩

theorem claim_C5_witness :
    (mainModel ["./lb"] 3).stderrLine =
        "One positive integer as parameter required.\n" ∧
      (mainModel ["./lb"] 3).searchRan = false ∧
      (mainModel ["./lb"] 3).exitCode = 0 :=
  claim_C5.1 ["./lb"] 3 (by decide)

/-- C5 counterexample: the argument `"abc"` is non-numeric (it contains
no digit at all), yet the program does not print the usage diagnostic and
does not skip the search: `atoi` parses it as `0`, the program reports
`Working on genus 0.` and runs the genus-`0` search (whose state moves
off the seed). -/
theorem claim_C5_counterexample :
    atoi "abc" = 0 ∧
    ("abc".data.all (fun ch => ! ch.isDigit)) = true ∧
    (mainModel ["./lb", "abc"] 3).searchRan = true ∧
    (mainModel ["./lb", "abc"] 3).stderrLine = "Working on genus 0.\n" ∧
    (mainModel ["./lb", "abc"] 3).stderrLine ≠
      "One positive integer as parameter required.\n" ∧
    (mainModel ["./lb", "abc"] 3).searchState ≠ initState :=
  ⟨by decide, by decide, by decide, by decide, by decide, by decide⟩

end LB

namespace LB

/-! ## The induced permutation: the strand walk is a bijection -/

theorem applyLetter_ge_one {x p : Nat} (hx : 1 ≤ x) (hp : 1 ≤ p) :
    1 ≤ applyLetter x p := by
  unfold applyLetter
  split_ifs with h1 h2 <;> omega

theorem applyLetter_le {x p m : Nat} (hx : x ≤ m) (hp : p ≤ m + 1) :
    applyLetter x p ≤ m + 1 := by
  unfold applyLetter
  split_ifs with h1 h2 <;> omega

theorem applyLetter_invol {x : Nat} (hx : 1 ≤ x) (p : Nat) :
    applyLetter x (applyLetter x p) = p := by
  unfold applyLetter
  by_cases h1 : x = p
  · rw [if_pos h1]
    rw [if_neg (by omega), if_pos (by omega)]
    omega
  · rw [if_neg h1]
    by_cases h2 : x = p - 1
    · rw [if_pos h2]
      rw [if_pos (by omega)]
      omega
    · rw [if_neg h2, if_neg h1, if_neg h2]

theorem applyWord_ge_one {b : List Nat} (hb : ∀ x ∈ b, 1 ≤ x) :
    ∀ {p : Nat}, 1 ≤ p → 1 ≤ applyWord b p := by
  induction b with
  | nil => intro p hp; exact hp
  | cons a t ih =>
    intro p hp
    unfold applyWord
    rw [List.foldl_cons]
    exact ih (fun x hx => hb x (List.mem_cons_of_mem a hx))
      (applyLetter_ge_one (hb a (List.mem_cons_self a t)) hp)

theorem applyWord_le {b : List Nat} {m : Nat} (hb : ∀ x ∈ b, x ≤ m) :
    ∀ {p : Nat}, p ≤ m + 1 → applyWord b p ≤ m + 1 := by
  induction b with
  | nil => intro p hp; exact hp
  | cons a t ih =>
    intro p hp
    unfold applyWord
    rw [List.foldl_cons]
    exact ih (fun x hx => hb x (List.mem_cons_of_mem a hx))
      (applyLetter_le (hb a (List.mem_cons_self a t)) hp)

theorem applyWordInv_applyWord {b : List Nat} (hb : ∀ x ∈ b, 1 ≤ x)
    (p : Nat) : applyWordInv b (applyWord b p) = p := by
  induction b generalizing p with
  | nil => rfl
  | cons a t ih =>
    unfold applyWord applyWordInv at *
    rw [List.foldl_cons, List.foldr_cons]
    rw [ih (fun x hx => hb x (List.mem_cons_of_mem a hx))]
    exact applyLetter_invol (hb a (List.mem_cons_self a t)) p

theorem applyWord_inj {b : List Nat} (hb : ∀ x ∈ b, 1 ≤ x) {p q : Nat}
    (h : applyWord b p = applyWord b q) : p = q := by
  have h1 := applyWordInv_applyWord hb p
  have h2 := applyWordInv_applyWord hb q
  rw [← h1, ← h2, h]

theorem applyWord_mem_le {b : List Nat} :
    ∀ {p : Nat}, p ≤ max b + 1 → applyWord b p ≤ max b + 1 :=
  fun hp => applyWord_le (fun _ hx => le_max_of_mem hx) hp

/-! ## Iterating the walk -/

theorem iterF_succ (b : List Nat) (k i : Nat) :
    iterF b (k + 1) i = iterF b k (applyWord b (i + 1) - 1) := rfl

theorem iterF_add (b : List Nat) (a c : Nat) :
    ∀ j, iterF b (a + c) j = iterF b c (iterF b a j) := by
  induction a with
  | zero => intro j; rw [Nat.zero_add]; rfl
  | succ a ih =>
    intro j
    rw [Nat.succ_add, iterF_succ, iterF_succ, ih]

theorem stepF_lt {b : List Nat} (hb : ∀ x ∈ b, 1 ≤ x) {j : Nat}
    (hj : j < max b + 1) : applyWord b (j + 1) - 1 < max b + 1 := by
  have h1 : 1 ≤ applyWord b (j + 1) := applyWord_ge_one hb (by omega)
  have h2 : applyWord b (j + 1) ≤ max b + 1 := applyWord_mem_le (by omega)
  omega

theorem stepF_inj {b : List Nat} (hb : ∀ x ∈ b, 1 ≤ x) {j1 j2 : Nat}
    (h : applyWord b (j1 + 1) - 1 = applyWord b (j2 + 1) - 1) : j1 = j2 := by
  have h1 : 1 ≤ applyWord b (j1 + 1) := applyWord_ge_one hb (by omega)
  have h2 : 1 ≤ applyWord b (j2 + 1) := applyWord_ge_one hb (by omega)
  have h3 : applyWord b (j1 + 1) = applyWord b (j2 + 1) := by omega
  have := applyWord_inj hb h3
  omega

theorem iterF_lt {b : List Nat} (hb : ∀ x ∈ b, 1 ≤ x) :
    ∀ (k : Nat) {j : Nat}, j < max b + 1 → iterF b k j < max b + 1 := by
  intro k
  induction k with
  | zero => intro j hj; exact hj
  | succ k ih =>
    intro j hj
    rw [iterF_succ]
    exact ih (stepF_lt hb hj)

theorem iterF_inj {b : List Nat} (hb : ∀ x ∈ b, 1 ≤ x) :
    ∀ (k : Nat) {j1 j2 : Nat}, iterF b k j1 = iterF b k j2 → j1 = j2 := by
  intro k
  induction k with
  | zero => intro j1 j2 h; exact h
  | succ k ih =>
    intro j1 j2 h
    rw [iterF_succ, iterF_succ] at h
    exact stepF_inj hb (ih h)

/-- Every strand index returns to itself: the cycle of `j` has period at
most `max b + 1`. -/
theorem iterF_period {b : List Nat} (hb : ∀ x ∈ b, 1 ≤ x) {j : Nat}
    (hj : j < max b + 1) :
    ∃ d, 0 < d ∧ d ≤ max b + 1 ∧ iterF b d j = j := by
  have hmaps : ∀ k ∈ Finset.range (max b + 1 + 1),
      iterF b k j ∈ Finset.range (max b + 1) := by
    intro k _
    rw [Finset.mem_range]
    exact iterF_lt hb k hj
  have hcard : (Finset.range (max b + 1)).card <
      (Finset.range (max b + 1 + 1)).card := by
    simp
  obtain ⟨a, ha, c, hc, hne, heq⟩ :=
    Finset.exists_ne_map_eq_of_card_lt_of_maps_to hcard hmaps
  rw [Finset.mem_range] at ha hc
  rcases Nat.lt_or_ge a c with hlt | hge
  · refine ⟨c - a, by omega, by omega, ?_⟩
    have hc' : c = (c - a) + a := by omega
    rw [hc', iterF_add] at heq
    exact iterF_inj hb a heq.symm
  · have hne2 : c < a := by omega
    refine ⟨a - c, by omega, by omega, ?_⟩
    have ha' : a = (a - c) + c := by omega
    rw [ha', iterF_add] at heq
    exact iterF_inj hb c heq

theorem reach_bounded {b : List Nat} (hb : ∀ x ∈ b, 1 ≤ x) {j : Nat}
    (hj : j < max b + 1) :
    ∀ (k : Nat) {j' : Nat}, iterF b k j = j' →
      ∃ k' < max b + 1, iterF b k' j = j' := by
  intro k
  induction k using Nat.strong_induction_on with
  | _ k ih =>
    intro j' hk
    by_cases hlt : k < max b + 1
    · exact ⟨k, hlt, hk⟩
    · obtain ⟨d, hd0, hdsz, hdj⟩ := iterF_period hb hj
      have hsplit : k = d + (k - d) := by omega
      rw [hsplit, iterF_add, hdj] at hk
      exact ih (k - d) (by omega) hk

theorem reachableIn_iff {b : List Nat} (hb : ∀ x ∈ b, 1 ≤ x) {j j' : Nat}
    (hj : j < max b + 1) :
    reachableIn b j j' = true ↔ ∃ k, iterF b k j = j' := by
  unfold reachableIn
  rw [List.any_eq_true]
  constructor
  · rintro ⟨k, _, hk⟩
    exact ⟨k, by simpa using hk⟩
  · rintro ⟨k, hk⟩
    obtain ⟨k', hk', h⟩ := reach_bounded hb hj k hk
    exact ⟨k', by simp [List.mem_range, hk'], by simpa using h⟩

end LB

namespace LB

/-! ## Correctness of the cycle-marking sweep -/

theorem markCycle_succ (b : List Nat) (fuel : Nat) (comp : List Nat)
    (idx counter : Nat) :
    markCycle b (fuel + 1) comp idx counter =
      if comp.getD idx 1 = 0 then
        markCycle b fuel (setNth comp idx counter)
          (applyWord b (idx + 1) - 1) counter
      else comp := rfl

theorem count0_setNth : ∀ (comp : List Nat) (idx c : Nat),
    comp.getD idx 1 = 0 → c ≠ 0 →
    (setNth comp idx c).count 0 + 1 = comp.count 0 := by
  intro comp
  induction comp with
  | nil =>
    intro idx c h
    simp [List.getD] at h
  | cons a t ih =>
    intro idx c h hc
    cases idx with
    | zero =>
      simp only [List.getD_cons_zero] at h
      subst h
      simp only [setNth]
      rw [List.count_cons, List.count_cons]
      simp [hc, Ne.symm hc]
    | succ idx =>
      simp only [List.getD_cons_succ] at h
      simp only [setNth]
      rw [List.count_cons, List.count_cons, ← ih idx c h hc]
      omega

theorem marked_setNth {comp : List Nat} {idx c : Nat} (hc : c ≠ 0)
    (hlt : idx < comp.length) {j : Nat} (h : comp.getD j 1 ≠ 0) :
    (setNth comp idx c).getD j 1 ≠ 0 := by
  by_cases hji : j = idx
  · subst hji
    rw [getD_setNth_self comp j c hlt]
    exact hc
  · rw [getD_setNth_ne comp idx j c hji]
    exact h

theorem marked_setNth_self {comp : List Nat} {idx c : Nat} (hc : c ≠ 0)
    (hlt : idx < comp.length) : (setNth comp idx c).getD idx 1 ≠ 0 := by
  rw [getD_setNth_self comp idx c hlt]
  exact hc

theorem markCycle_spec {b : List Nat} (hb : ∀ x ∈ b, 1 ≤ x) :
    ∀ (fuel : Nat) (comp : List Nat) (idx counter : Nat),
    comp.length = max b + 1 → 1 ≤ counter → idx < max b + 1 →
    (∀ j, j < max b + 1 → comp.getD j 1 ≠ 0 →
      comp.getD (applyWord b (j + 1) - 1) 1 ≠ 0 ∨
        applyWord b (j + 1) - 1 = idx) →
    comp.count 0 < fuel →
    ((markCycle b fuel comp idx counter).length = max b + 1) ∧
    (∀ j, j < max b + 1 →
      (markCycle b fuel comp idx counter).getD j 1 ≠ 0 →
      (markCycle b fuel comp idx counter).getD
        (applyWord b (j + 1) - 1) 1 ≠ 0) ∧
    (∀ j, comp.getD j 1 ≠ 0 →
      (markCycle b fuel comp idx counter).getD j 1 ≠ 0) ∧
    ((markCycle b fuel comp idx counter).getD idx 1 ≠ 0) ∧
    (∀ j, (markCycle b fuel comp idx counter).getD j 1 ≠ 0 →
      comp.getD j 1 ≠ 0 ∨ ∃ k, iterF b k idx = j) := by
  intro fuel
  induction fuel with
  | zero =>
    intro comp idx counter _ _ _ _ hfuel
    omega
  | succ fuel ih =>
    intro comp idx counter hlen hcnt hidx hclosed hfuel
    rw [markCycle_succ]
    by_cases hmk : comp.getD idx 1 = 0
    · rw [if_pos hmk]
      have hidxlen : idx < comp.length := by omega
      have hcne : counter ≠ 0 := by omega
      have hlen' : (setNth comp idx counter).length = max b + 1 := by
        rw [setNth_length]; exact hlen
      have hmono1 : ∀ j, comp.getD j 1 ≠ 0 →
          (setNth comp idx counter).getD j 1 ≠ 0 :=
        fun j h => marked_setNth hcne hidxlen h
      have hmkidx : (setNth comp idx counter).getD idx 1 ≠ 0 :=
        marked_setNth_self hcne hidxlen
      have hFidx : applyWord b (idx + 1) - 1 < max b + 1 := stepF_lt hb hidx
      have hclosed' : ∀ j, j < max b + 1 →
          (setNth comp idx counter).getD j 1 ≠ 0 →
          (setNth comp idx counter).getD (applyWord b (j + 1) - 1) 1 ≠ 0 ∨
            applyWord b (j + 1) - 1 = applyWord b (idx + 1) - 1 := by
        intro j hj hm
        by_cases hji : j = idx
        · subst hji
          exact Or.inr rfl
        · rw [getD_setNth_ne comp idx j counter hji] at hm
          rcases hclosed j hj hm with h | h
          · exact Or.inl (hmono1 _ h)
          · rw [h]
            exact Or.inl hmkidx
      have hfuel' : (setNth comp idx counter).count 0 < fuel := by
        have := count0_setNth comp idx counter hmk hcne
        omega
      obtain ⟨r1, r2, r3, r4, r5⟩ :=
        ih (setNth comp idx counter) (applyWord b (idx + 1) - 1) counter
          hlen' hcnt hFidx hclosed' hfuel'
      refine ⟨r1, r2, ?_, ?_, ?_⟩
      · intro j h
        exact r3 j (hmono1 j h)
      · exact r3 idx hmkidx
      · intro j h
        rcases r5 j h with h2 | ⟨k, hk⟩
        · by_cases hji : j = idx
          · exact Or.inr ⟨0, hji.symm⟩
          · rw [getD_setNth_ne comp idx j counter hji] at h2
            exact Or.inl h2
        · exact Or.inr ⟨k + 1, by rw [iterF_succ]; exact hk⟩
    · rw [if_neg hmk]
      refine ⟨hlen, ?_, fun j h => h, hmk, fun j h => Or.inl h⟩
      intro j hj hm
      rcases hclosed j hj hm with h | h
      · exact h
      · rw [h]
        exact hmk

theorem closure_iter {b : List Nat} (hb : ∀ x ∈ b, 1 ≤ x)
    {comp : List Nat}
    (hcl : ∀ j, j < max b + 1 → comp.getD j 1 ≠ 0 →
      comp.getD (applyWord b (j + 1) - 1) 1 ≠ 0) :
    ∀ (k : Nat) {j : Nat}, j < max b + 1 → comp.getD j 1 ≠ 0 →
      comp.getD (iterF b k j) 1 ≠ 0 := by
  intro k
  induction k with
  | zero => intro j _ h; exact h
  | succ k ih =>
    intro j hj h
    rw [iterF_succ]
    exact ih (stepF_lt hb hj) (hcl j hj h)

theorem getD_replicate_zero : ∀ (n j : Nat), j < n →
    (List.replicate n 0).getD j 1 = 0 := by
  intro n
  induction n with
  | zero => intro j h; omega
  | succ n ih =>
    intro j h
    rw [List.replicate_succ]
    cases j with
    | zero => rfl
    | succ j =>
      rw [List.getD_cons_succ]
      exact ih j (by omega)

end LB

namespace LB

/-! ## The outer sweep counts exactly the cycles -/

theorem compStep_fire (b : List Nat) (sz : Nat) (comp : List Nat)
    (counter i : Nat) (h : comp.getD i 1 = 0) :
    compStep b sz (comp, counter) i =
      (markCycle b (sz + 1) comp i (counter + 1), counter + 1) := by
  unfold compStep
  exact if_pos h

theorem compStep_skip (b : List Nat) (sz : Nat) (comp : List Nat)
    (counter i : Nat) (h : ¬ comp.getD i 1 = 0) :
    compStep b sz (comp, counter) i = (comp, counter) := by
  unfold compStep
  exact if_neg h

theorem sweep_counts {b : List Nat} (hb : ∀ x ∈ b, 1 ≤ x) :
    ∀ (n i0 : Nat) (comp : List Nat) (counter : Nat),
    i0 + n = max b + 1 →
    comp.length = max b + 1 →
    (∀ j, j < max b + 1 → comp.getD j 1 ≠ 0 →
      comp.getD (applyWord b (j + 1) - 1) 1 ≠ 0) →
    (∀ j, j < max b + 1 → comp.getD j 1 ≠ 0 →
      ∃ j', j' < i0 ∧ ∃ k, iterF b k j' = j) →
    (∀ j', j' < i0 → comp.getD j' 1 ≠ 0) →
    counter = ((List.range i0).filter
      (fun i => ! (List.range i).any (fun j => reachableIn b j i))).length →
    ((List.range' i0 n).foldl (compStep b (max b + 1)) (comp, counter)).2 =
      ((List.range (i0 + n)).filter
        (fun i => ! (List.range i).any (fun j => reachableIn b j i))).length
    := by
  intro n
  induction n with
  | zero =>
    intro i0 comp counter hsz _ _ _ _ hcounter
    simpa using hcounter
  | succ n ih =>
    intro i0 comp counter hsz hlen hclosed hsound hproc hcounter
    have hi0 : i0 < max b + 1 := by omega
    have hrange : List.range' i0 (n + 1) = i0 :: List.range' (i0 + 1) n :=
      rfl
    rw [hrange, List.foldl_cons]
    have hfilter : ∀ (c : Bool),
        ((List.range i0).any (fun j => reachableIn b j i0)) = c →
        ((List.range (i0 + 1)).filter
          (fun i => ! (List.range i).any (fun j => reachableIn b j i))).length
          = ((List.range i0).filter
            (fun i => ! (List.range i).any (fun j => reachableIn b j i))).length
            + (if c then 0 else 1) := by
      intro c hc
      rw [List.range_succ, List.filter_append, List.length_append,
        List.filter_singleton, hc]
      cases c <;> simp
    by_cases hmk : comp.getD i0 1 = 0
    · rw [compStep_fire b (max b + 1) comp counter i0 hmk]
      have hcl' : ∀ j, j < max b + 1 → comp.getD j 1 ≠ 0 →
          comp.getD (applyWord b (j + 1) - 1) 1 ≠ 0 ∨
            applyWord b (j + 1) - 1 = i0 :=
        fun j hj hm => Or.inl (hclosed j hj hm)
      have hfuel : comp.count 0 < max b + 1 + 1 := by
        have := List.count_le_length (l := comp) (a := 0)
        omega
      obtain ⟨r1, r2, r3, r4, r5⟩ := markCycle_spec hb (max b + 1 + 1)
        comp i0 (counter + 1) hlen (by omega) hi0 hcl' hfuel
      have hcond : ((List.range i0).any (fun j => reachableIn b j i0))
          = false := by
        by_contra hany
        rw [Bool.not_eq_false, List.any_eq_true] at hany
        obtain ⟨j, hjmem, hreach⟩ := hany
        rw [List.mem_range] at hjmem
        have hjsz : j < max b + 1 := by omega
        obtain ⟨k, hk⟩ := (reachableIn_iff hb hjsz).mp hreach
        have hmj := hproc j hjmem
        have := closure_iter hb hclosed k hjsz hmj
        rw [hk] at this
        exact this hmk
      have hnew : counter + 1 = ((List.range (i0 + 1)).filter
          (fun i => ! (List.range i).any (fun j => reachableIn b j i))).length
          := by
        rw [hfilter false hcond]
        simp
        omega
      have hsz' : (i0 + 1) + n = max b + 1 := by omega
      have := ih (i0 + 1) (markCycle b (max b + 1 + 1) comp i0 (counter + 1))
        (counter + 1) hsz' r1 r2
        (by
          intro j hj hm
          rcases r5 j hm with hold | ⟨k, hk⟩
          · obtain ⟨j', hj', hkk⟩ := hsound j hj hold
            exact ⟨j', by omega, hkk⟩
          · exact ⟨i0, by omega, k, hk⟩)
        (by
          intro j' hj'
          rcases Nat.lt_or_ge j' i0 with h | h
          · exact r3 j' (hproc j' h)
          · have : j' = i0 := by omega
            rw [this]
            exact r4)
        hnew
      rw [this]
      have : i0 + 1 + n = i0 + (n + 1) := by omega
      rw [this]
    · rw [compStep_skip b (max b + 1) comp counter i0 hmk]
      have hcond : ((List.range i0).any (fun j => reachableIn b j i0))
          = true := by
        obtain ⟨j', hj', k, hk⟩ := hsound i0 hi0 hmk
        rw [List.any_eq_true]
        refine ⟨j', by rw [List.mem_range]; exact hj', ?_⟩
        have hjsz : j' < max b + 1 := by omega
        exact (reachableIn_iff hb hjsz).mpr ⟨k, hk⟩
      have hnew : counter = ((List.range (i0 + 1)).filter
          (fun i => ! (List.range i).any (fun j => reachableIn b j i))).length
          := by
        rw [hfilter true hcond]
        simp [hcounter]
      have hsz' : (i0 + 1) + n = max b + 1 := by omega
      have := ih (i0 + 1) comp counter hsz' hlen hclosed
        (by
          intro j hj hm
          obtain ⟨j', hj', hkk⟩ := hsound j hj hm
          exact ⟨j', by omega, hkk⟩)
        (by
          intro j' hj'
          rcases Nat.lt_or_ge j' i0 with h | h
          · exact hproc j' h
          · have : j' = i0 := by omega
            rw [this]
            exact hmk)
        hnew
      rw [this]
      have : i0 + 1 + n = i0 + (n + 1) := by omega
      rw [this]

theorem numberOfComponents_eq_spec {b : List Nat} (hne : b ≠ [])
    (hb : ∀ x ∈ b, 1 ≤ x) :
    numberOfComponents b = specNumberOfComponents b := by
  unfold numberOfComponents specNumberOfComponents
  rw [if_neg hne, List.range_eq_range']
  have h := sweep_counts hb (max b + 1) 0 (List.replicate (max b + 1) 0) 0
    (by omega) (by simp)
    (by
      intro j hj hm
      exact absurd (getD_replicate_zero (max b + 1) j hj) hm)
    (by
      intro j hj hm
      exact absurd (getD_replicate_zero (max b + 1) j hj) hm)
    (by intro j' hj'; omega)
    (by simp)
  rw [h]
  simp [List.range_eq_range']

end LB

namespace LB

theorem two_le_length_filter {p : Nat → Bool} {l : List Nat}
    {a c : Nat} (ha : a ∈ l) (hc : c ∈ l) (hac : a ≠ c)
    (hpa : p a = true) (hpc : p c = true) : 2 ≤ (l.filter p).length := by
  have ha' : a ∈ l.filter p := List.mem_filter.mpr ⟨ha, hpa⟩
  have hc' : c ∈ l.filter p := List.mem_filter.mpr ⟨hc, hpc⟩
  obtain ⟨s, t, hst⟩ := List.append_of_mem ha'
  rw [hst] at hc' ⊢
  rw [List.length_append, List.length_cons]
  rcases List.mem_append.mp hc' with h | h
  · have : s ≠ [] := by
      intro e
      rw [e] at h
      simp at h
    have : 1 ≤ s.length := List.length_pos.mpr this
    omega
  · rcases List.mem_cons.mp h with h | h
    · exact absurd h.symm hac
    · have : t ≠ [] := by
        intro e
        rw [e] at h
        simp at h
      have : 1 ≤ t.length := List.length_pos.mpr this
      omega

/-- A single-component word induces a single cycle: every 0-based strand
index is reached from index `0`. -/
theorem components_one_single_orbit {b : List Nat} (hne : b ≠ [])
    (hb : ∀ x ∈ b, 1 ≤ x) (h1 : numberOfComponents b = 1) :
    ∀ j, j < max b + 1 → ∃ k, iterF b k 0 = j := by
  have hspec : specNumberOfComponents b = 1 := by
    rw [← numberOfComponents_eq_spec hne hb]
    exact h1
  unfold specNumberOfComponents at hspec
  intro j
  induction j using Nat.strong_induction_on with
  | _ j ihj =>
    intro hj
    cases Nat.eq_zero_or_pos j with
    | inl h0 =>
      exact ⟨0, h0.symm⟩
    | inr hpos =>
      have hcond : ((List.range j).any (fun i => reachableIn b i j)) = true
          := by
        by_contra hfalse
        rw [Bool.not_eq_true] at hfalse
        have h0mem : (0 : Nat) ∈ List.range (max b + 1) := by
          rw [List.mem_range]
          omega
        have hjmem : j ∈ List.range (max b + 1) := by
          rw [List.mem_range]
          exact hj
        have hp0 : (! (List.range 0).any
            (fun i => reachableIn b i 0)) = true := by simp
        have hpj : (! (List.range j).any
            (fun i => reachableIn b i j)) = true := by
          rw [hfalse]
          rfl
        have h2 := @two_le_length_filter
          (fun i => ! (List.range i).any (fun j2 => reachableIn b j2 i))
          (List.range (max b + 1)) 0 j h0mem hjmem (by omega) hp0 hpj
        omega
      rw [List.any_eq_true] at hcond
      obtain ⟨i, himem, hreach⟩ := hcond
      rw [List.mem_range] at himem
      have hisz : i < max b + 1 := by omega
      obtain ⟨k, hk⟩ := (reachableIn_iff hb hisz).mp hreach
      obtain ⟨k0, hk0⟩ := ihj i himem hisz
      refine ⟨k0 + k, ?_⟩
      rw [iterF_add, hk0, hk]

/-- C10: `numberOfComponents` returns `0` on the empty word, while on any
nonempty word it returns the number of cycles of the permutation induced
on the `max w + 1` strand positions (at least `1`); the spec's
cycle-count formula would give `2` on the empty word (identity
permutation on `max [] + 1 = 2` strands), not the `0` the code returns. -/
theorem claim_C10 :
    numberOfComponents [] = 0 ∧
    (∀ b : List Nat, b ≠ [] → (∀ x ∈ b, 1 ≤ x) →
      1 ≤ numberOfComponents b ∧
      numberOfComponents b = specNumberOfComponents b) ∧
    specNumberOfComponents [] = 2 := by
  refine ⟨rfl, ?_, by decide⟩
  intro b hne hb
  exact ⟨numberOfComponents_pos hne, numberOfComponents_eq_spec hne hb⟩

theorem claim_C10_witness :
    1 ≤ numberOfComponents [1, 2] ∧
    numberOfComponents [1, 2] = specNumberOfComponents [1, 2] :=
  claim_C10.2.1 [1, 2] (by decide) (by decide)

end LB

namespace LB

/-! ## The DT traversal as an event sequence -/

theorem setRec_length (l : List IntPair) (i : Nat) (v : IntPair) :
    (setRec l i v).length = l.length := by
  induction l generalizing i with
  | nil => rfl
  | cons a t ih =>
    cases i with
    | zero => rfl
    | succ i => simp [setRec, ih]

theorem getD_setRec_self : ∀ (l : List IntPair) (i : Nat) (v d : IntPair),
    i < l.length → (setRec l i v).getD i d = v
  | [], i, v, d, h => by simp at h
  | a :: t, 0, v, d, _ => rfl
  | a :: t, i + 1, v, d, h => by
    simp only [setRec, List.getD_cons_succ]
    exact getD_setRec_self t i v d (by simpa using h)

theorem getD_setRec_ne : ∀ (l : List IntPair) (i k : Nat) (v d : IntPair),
    k ≠ i → (setRec l i v).getD k d = l.getD k d
  | [], _, _, _, _, _ => rfl
  | a :: t, 0, 0, v, d, h => absurd rfl h
  | a :: t, 0, k + 1, v, d, _ => rfl
  | a :: t, i + 1, 0, v, d, _ => rfl
  | a :: t, i + 1, k + 1, v, d, h => by
    simp only [setRec, List.getD_cons_succ]
    exact getD_setRec_ne t i k v d (fun e => h (by rw [e]))

theorem dtLetter_skip (x idx : Nat) (recs : List IntPair) (c cc : Nat)
    (h : ¬ (x = c ∨ x = c + 1)) :
    dtLetter x idx (recs, c, cc) = (recs, c, cc) := by
  unfold dtLetter
  exact if_neg h

theorem dtLetter_eng (x idx : Nat) (recs : List IntPair) (c cc : Nat)
    (h : x = c ∨ x = c + 1) :
    dtLetter x idx (recs, c, cc) =
      (setRec recs idx (dtRec (recs.getD idx ⟨0, 0, false⟩) x c cc),
        (if x = c + 1 then c + 1 else c - 1), cc + 1) := by
  unfold dtLetter dtRec
  dsimp only
  rw [if_pos h]
  split_ifs <;> rfl

theorem dtRec_e (r : IntPair) (x c cc : Nat) :
    (dtRec r x c cc).e = if cc % 2 = 1 then r.e else cc := by
  unfold dtRec
  split_ifs <;> rfl

theorem dtSeq_nil (st : List IntPair × Nat × Nat) : dtSeq [] st = st := rfl

theorem dtSeq_cons (x idx : Nat) (l : List (Nat × Nat))
    (st : List IntPair × Nat × Nat) :
    dtSeq ((x, idx) :: l) st = dtSeq l (dtLetter x idx st) := rfl

theorem dtSeq_append (l1 l2 : List (Nat × Nat))
    (st : List IntPair × Nat × Nat) :
    dtSeq (l1 ++ l2) st = dtSeq l2 (dtSeq l1 st) := by
  unfold dtSeq
  rw [List.foldl_append]

theorem dtSeq_c (l : List (Nat × Nat)) :
    ∀ (recs : List IntPair) (c cc : Nat),
    (dtSeq l (recs, c, cc)).2.1 = cAfterEv l c := by
  induction l with
  | nil => intro recs c cc; rfl
  | cons e rest ih =>
    rcases e with ⟨x, idx⟩
    intro recs c cc
    rw [dtSeq_cons]
    unfold cAfterEv
    by_cases h : x = c ∨ x = c + 1
    · rw [dtLetter_eng x idx recs c cc h, if_pos h, ih]
    · rw [dtLetter_skip x idx recs c cc h, if_neg h, ih]

theorem dtSeq_cc (l : List (Nat × Nat)) :
    ∀ (recs : List IntPair) (c cc : Nat),
    (dtSeq l (recs, c, cc)).2.2 = cc + engCount l c := by
  induction l with
  | nil => intro recs c cc; simp [dtSeq, engCount]
  | cons e rest ih =>
    rcases e with ⟨x, idx⟩
    intro recs c cc
    rw [dtSeq_cons]
    unfold engCount
    by_cases h : x = c ∨ x = c + 1
    · rw [dtLetter_eng x idx recs c cc h, if_pos h, ih]
      omega
    · rw [dtLetter_skip x idx recs c cc h, if_neg h, ih]

theorem dtSeq_len (l : List (Nat × Nat)) :
    ∀ (recs : List IntPair) (c cc : Nat),
    (dtSeq l (recs, c, cc)).1.length = recs.length := by
  induction l with
  | nil => intro recs c cc; rfl
  | cons e rest ih =>
    rcases e with ⟨x, idx⟩
    intro recs c cc
    rw [dtSeq_cons]
    by_cases h : x = c ∨ x = c + 1
    · rw [dtLetter_eng x idx recs c cc h, ih, setRec_length]
    · rw [dtLetter_skip x idx recs c cc h, ih]

theorem applyWord_cons (x : Nat) (ls : List Nat) (p : Nat) :
    applyWord (x :: ls) p = applyWord ls (applyLetter x p) := rfl

theorem cAfterEv_applyWord (l : List (Nat × Nat)) :
    ∀ (c : Nat), (∀ e ∈ l, 1 ≤ e.1) →
    cAfterEv l c = applyWord (l.map Prod.fst) (c + 1) - 1 := by
  induction l with
  | nil =>
    intro c _
    simp [cAfterEv, applyWord]
  | cons e rest ih =>
    rcases e with ⟨x, idx⟩
    intro c hl
    have hx : 1 ≤ x := hl (x, idx) (List.mem_cons_self _ _)
    have hrest : ∀ e ∈ rest, 1 ≤ e.1 :=
      fun e he => hl e (List.mem_cons_of_mem _ he)
    unfold cAfterEv
    simp only [List.map_cons]
    rw [applyWord_cons]
    by_cases h : x = c ∨ x = c + 1
    · rw [if_pos h]
      by_cases h1 : x = c + 1
      · rw [if_pos h1, ih (c + 1) hrest]
        have : applyLetter x (c + 1) = c + 1 + 1 := by
          unfold applyLetter
          rw [if_pos h1]
        rw [this]
      · have hxc : x = c := by
          rcases h with h | h
          · exact h
          · exact absurd h h1
        rw [if_neg h1, ih (c - 1) hrest]
        have hc1 : 1 ≤ c := by omega
        have : applyLetter x (c + 1) = c := by
          unfold applyLetter
          rw [if_neg (by omega), if_pos (by omega)]
          omega
        rw [this]
        have : c - 1 + 1 = c := by omega
        rw [this]
    · rw [if_neg h, ih c hrest]
      have : applyLetter x (c + 1) = c + 1 := by
        unfold applyLetter
        rw [if_neg (by omega), if_neg (by omega)]
      rw [this]

end LB

namespace LB

/-! ## Label bookkeeping for the DT traversal -/

theorem labelsAt_eng {x c : Nat} (idx cc p : Nat) (rest : List (Nat × Nat))
    (h : x = c ∨ x = c + 1) :
    labelsAt ((x, idx) :: rest) c cc p =
      (if idx = p then [cc] else []) ++
        labelsAt rest (if x = c + 1 then c + 1 else c - 1) (cc + 1) p := by
  conv_lhs => rw [labelsAt]
  rw [if_pos h]

theorem labelsAt_skip {x c : Nat} (idx cc p : Nat) (rest : List (Nat × Nat))
    (h : ¬ (x = c ∨ x = c + 1)) :
    labelsAt ((x, idx) :: rest) c cc p = labelsAt rest c cc p := by
  conv_lhs => rw [labelsAt]
  rw [if_neg h]

theorem engCount_eng {x c : Nat} (idx : Nat) (rest : List (Nat × Nat))
    (h : x = c ∨ x = c + 1) :
    engCount ((x, idx) :: rest) c =
      1 + engCount rest (if x = c + 1 then c + 1 else c - 1) := by
  conv_lhs => rw [engCount]
  rw [if_pos h]

theorem engCount_skip {x c : Nat} (idx : Nat) (rest : List (Nat × Nat))
    (h : ¬ (x = c ∨ x = c + 1)) :
    engCount ((x, idx) :: rest) c = engCount rest c := by
  conv_lhs => rw [engCount]
  rw [if_neg h]

theorem cAfterEv_eng {x c : Nat} (idx : Nat) (rest : List (Nat × Nat))
    (h : x = c ∨ x = c + 1) :
    cAfterEv ((x, idx) :: rest) c =
      cAfterEv rest (if x = c + 1 then c + 1 else c - 1) := by
  conv_lhs => rw [cAfterEv]
  rw [if_pos h]

theorem cAfterEv_skip {x c : Nat} (idx : Nat) (rest : List (Nat × Nat))
    (h : ¬ (x = c ∨ x = c + 1)) :
    cAfterEv ((x, idx) :: rest) c = cAfterEv rest c := by
  conv_lhs => rw [cAfterEv]
  rw [if_neg h]

theorem parity_inv (l : List (Nat × Nat)) :
    ∀ (c cc : Nat), (∀ e ∈ l, 1 ≤ e.1) →
    (cc + engCount l c + cAfterEv l c) % 2 = (cc + c) % 2 := by
  induction l with
  | nil =>
    intro c cc _
    simp [engCount, cAfterEv]
  | cons e rest ih =>
    rcases e with ⟨x, idx⟩
    intro c cc hl
    have hx : 1 ≤ x := hl (x, idx) (List.mem_cons_self _ _)
    have hrest : ∀ e ∈ rest, 1 ≤ e.1 :=
      fun e he => hl e (List.mem_cons_of_mem _ he)
    by_cases h : x = c ∨ x = c + 1
    · rw [engCount_eng idx rest h, cAfterEv_eng idx rest h]
      have hih := ih (if x = c + 1 then c + 1 else c - 1) (cc + 1) hrest
      by_cases h1 : x = c + 1
      · rw [if_pos h1] at hih ⊢
        omega
      · have hxc : x = c := by
          rcases h with h | h
          · exact h
          · exact absurd h h1
        rw [if_neg h1] at hih ⊢
        have : 1 ≤ c := by omega
        omega
    · rw [engCount_skip idx rest h, cAfterEv_skip idx rest h]
      exact ih c cc hrest

theorem labelsAt_append (l1 l2 : List (Nat × Nat)) :
    ∀ (c cc p : Nat),
    labelsAt (l1 ++ l2) c cc p =
      labelsAt l1 c cc p ++
        labelsAt l2 (cAfterEv l1 c) (cc + engCount l1 c) p := by
  induction l1 with
  | nil =>
    intro c cc p
    simp [labelsAt, cAfterEv, engCount]
  | cons e rest ih =>
    rcases e with ⟨x, idx⟩
    intro c cc p
    rw [List.cons_append]
    by_cases h : x = c ∨ x = c + 1
    · rw [labelsAt_eng idx cc p _ h, labelsAt_eng idx cc p _ h,
        cAfterEv_eng idx _ h, engCount_eng idx _ h, ih,
        List.append_assoc]
      have : cc + (1 + engCount rest (if x = c + 1 then c + 1 else c - 1))
          = cc + 1 + engCount rest (if x = c + 1 then c + 1 else c - 1) := by
        omega
      rw [this]
    · rw [labelsAt_skip idx cc p _ h, labelsAt_skip idx cc p _ h,
        cAfterEv_skip idx _ h, engCount_skip idx _ h, ih]

theorem engCount_append (l1 l2 : List (Nat × Nat)) :
    ∀ (c : Nat),
    engCount (l1 ++ l2) c = engCount l1 c + engCount l2 (cAfterEv l1 c)
    := by
  induction l1 with
  | nil =>
    intro c
    simp [engCount, cAfterEv]
  | cons e rest ih =>
    rcases e with ⟨x, idx⟩
    intro c
    rw [List.cons_append]
    by_cases h : x = c ∨ x = c + 1
    · rw [engCount_eng idx _ h, engCount_eng idx _ h,
        cAfterEv_eng idx _ h, ih]
      omega
    · rw [engCount_skip idx _ h, engCount_skip idx _ h,
        cAfterEv_skip idx _ h, ih]

theorem labelsAt_not_mem (l : List (Nat × Nat)) :
    ∀ (c cc p : Nat), (∀ e ∈ l, e.2 ≠ p) → labelsAt l c cc p = [] := by
  induction l with
  | nil => intro c cc p _; rfl
  | cons e rest ih =>
    rcases e with ⟨x, idx⟩
    intro c cc p hl
    have hidx : idx ≠ p := hl (x, idx) (List.mem_cons_self _ _)
    have hrest : ∀ e ∈ rest, e.2 ≠ p :=
      fun e he => hl e (List.mem_cons_of_mem _ he)
    by_cases h : x = c ∨ x = c + 1
    · rw [labelsAt_eng idx cc p _ h, if_neg hidx, ih _ _ _ hrest]
      rfl
    · rw [labelsAt_skip idx cc p _ h]
      exact ih _ _ _ hrest

theorem labels_bounds (l : List (Nat × Nat)) :
    ∀ (c cc p v : Nat), v ∈ labelsAt l c cc p →
      cc ≤ v ∧ v < cc + engCount l c := by
  induction l with
  | nil =>
    intro c cc p v hv
    simp [labelsAt] at hv
  | cons e rest ih =>
    rcases e with ⟨x, idx⟩
    intro c cc p v hv
    by_cases h : x = c ∨ x = c + 1
    · rw [labelsAt_eng idx cc p _ h] at hv
      rw [engCount_eng idx _ h]
      rcases List.mem_append.mp hv with hv | hv
      · by_cases hip : idx = p
        · rw [if_pos hip] at hv
          simp only [List.mem_singleton] at hv
          omega
        · rw [if_neg hip] at hv
          simp at hv
      · have := ih _ _ _ _ hv
        omega
    · rw [labelsAt_skip idx cc p _ h] at hv
      rw [engCount_skip idx _ h]
      exact ih _ _ _ _ hv

theorem labels_disjoint (l : List (Nat × Nat)) :
    ∀ (c cc p p' v : Nat), v ∈ labelsAt l c cc p →
      v ∈ labelsAt l c cc p' → p = p' := by
  induction l with
  | nil =>
    intro c cc p p' v hv
    simp [labelsAt] at hv
  | cons e rest ih =>
    rcases e with ⟨x, idx⟩
    intro c cc p p' v hv hv'
    by_cases h : x = c ∨ x = c + 1
    · rw [labelsAt_eng idx cc p _ h] at hv
      rw [labelsAt_eng idx cc p' _ h] at hv'
      rcases List.mem_append.mp hv with hv | hv <;>
        rcases List.mem_append.mp hv' with hv' | hv'
      · by_cases hip : idx = p
        · by_cases hip' : idx = p'
          · omega
          · rw [if_neg hip'] at hv'
            simp at hv'
        · rw [if_neg hip] at hv
          simp at hv
      · by_cases hip : idx = p
        · rw [if_pos hip] at hv
          simp only [List.mem_singleton] at hv
          have := labels_bounds rest _ _ _ _ hv'
          omega
        · rw [if_neg hip] at hv
          simp at hv
      · by_cases hip' : idx = p'
        · rw [if_pos hip'] at hv'
          simp only [List.mem_singleton] at hv'
          have := labels_bounds rest _ _ _ _ hv
          omega
        · rw [if_neg hip'] at hv'
          simp at hv'
      · exact ih _ _ _ _ _ hv hv'
    · rw [labelsAt_skip idx cc p _ h] at hv
      rw [labelsAt_skip idx cc p' _ h] at hv'
      exact ih _ _ _ _ _ hv hv'

theorem labels_cover (l : List (Nat × Nat)) :
    ∀ (c cc v : Nat), cc ≤ v → v < cc + engCount l c →
      ∃ p, v ∈ labelsAt l c cc p := by
  induction l with
  | nil =>
    intro c cc v h1 h2
    simp [engCount] at h2
    omega
  | cons e rest ih =>
    rcases e with ⟨x, idx⟩
    intro c cc v h1 h2
    by_cases h : x = c ∨ x = c + 1
    · rw [engCount_eng idx _ h] at h2
      by_cases hveq : v = cc
      · refine ⟨idx, ?_⟩
        rw [labelsAt_eng idx cc idx _ h, if_pos rfl]
        rw [hveq]
        exact List.mem_append_left _ (List.mem_singleton.mpr rfl)
      · obtain ⟨p, hp⟩ := ih (if x = c + 1 then c + 1 else c - 1) (cc + 1) v
          (by omega) (by omega)
        refine ⟨p, ?_⟩
        rw [labelsAt_eng idx cc p _ h]
        exact List.mem_append_right _ hp
    · rw [engCount_skip idx _ h] at h2
      obtain ⟨p, hp⟩ := ih c cc v h1 h2
      refine ⟨p, ?_⟩
      rw [labelsAt_skip idx cc p _ h]
      exact hp

theorem dtSeq_e (l : List (Nat × Nat)) :
    ∀ (recs : List IntPair) (c cc p : Nat),
    (∀ e ∈ l, e.2 < recs.length) → p < recs.length →
    ((dtSeq l (recs, c, cc)).1.getD p ⟨0, 0, false⟩).e
      = ((labelsAt l c cc p).filter (fun v => v % 2 = 0)).getLastD
          ((recs.getD p ⟨0, 0, false⟩).e) := by
  induction l with
  | nil =>
    intro recs c cc p _ _
    simp [dtSeq, labelsAt]
  | cons e rest ih =>
    rcases e with ⟨x, idx⟩
    intro recs c cc p hl hp
    have hidx : idx < recs.length := hl (x, idx) (List.mem_cons_self _ _)
    have hrest : ∀ e ∈ rest, e.2 < recs.length :=
      fun e he => hl e (List.mem_cons_of_mem _ he)
    by_cases h : x = c ∨ x = c + 1
    · rw [dtSeq_cons, dtLetter_eng x idx recs c cc h,
        labelsAt_eng idx cc p _ h]
      have hlen' : (setRec recs idx
          (dtRec (recs.getD idx ⟨0, 0, false⟩) x c cc)).length
            = recs.length := setRec_length _ _ _
      have := ih (setRec recs idx (dtRec (recs.getD idx ⟨0, 0, false⟩) x c cc))
        (if x = c + 1 then c + 1 else c - 1) (cc + 1) p
        (by rw [hlen']; exact hrest) (by rw [hlen']; exact hp)
      rw [this]
      by_cases hip : idx = p
      · subst hip
        rw [if_pos rfl]
        rw [getD_setRec_self recs idx _ _ hidx, dtRec_e]
        by_cases hodd : cc % 2 = 1
        · rw [if_pos hodd]
          have : (cc :: labelsAt rest (if x = c + 1 then c + 1 else c - 1)
              (cc + 1) idx).filter (fun v => v % 2 = 0)
              = (labelsAt rest (if x = c + 1 then c + 1 else c - 1)
                (cc + 1) idx).filter (fun v => v % 2 = 0) := by
            rw [List.filter_cons]
            simp only [decide_eq_true_eq]
            rw [if_neg (by omega)]
          rw [List.singleton_append, this]
        · rw [if_neg hodd]
          have : (cc :: labelsAt rest (if x = c + 1 then c + 1 else c - 1)
              (cc + 1) idx).filter (fun v => v % 2 = 0)
              = cc :: (labelsAt rest (if x = c + 1 then c + 1 else c - 1)
                (cc + 1) idx).filter (fun v => v % 2 = 0) := by
            rw [List.filter_cons]
            simp only [decide_eq_true_eq]
            rw [if_pos (by omega)]
          rw [List.singleton_append, this, List.getLastD_cons]
      · rw [if_neg hip, getD_setRec_ne recs idx p _ _ (fun e => hip e.symm),
          List.nil_append]
    · rw [dtSeq_cons, dtLetter_skip x idx recs c cc h,
        labelsAt_skip idx cc p _ h]
      exact ih recs c cc p hrest hp

end LB

namespace LB

/-! ## One pass of the traversal, position by position -/

theorem applyWord_nil (p : Nat) : applyWord [] p = p := rfl

theorem applyLetter_eq_succ {x c : Nat} (h : x = c + 1) :
    applyLetter x (c + 1) = c + 2 := by
  unfold applyLetter
  rw [if_pos h]

theorem applyLetter_eq_pred {x c : Nat} (h1 : x = c) (hx : 1 ≤ x) :
    applyLetter x (c + 1) = c := by
  unfold applyLetter
  rw [if_neg (by omega), if_pos (by omega)]
  omega

theorem applyLetter_eq_skip {x c : Nat} (h : ¬ (x = c ∨ x = c + 1)) :
    applyLetter x (c + 1) = c + 1 := by
  unfold applyLetter
  rw [if_neg (by omega), if_neg (by omega)]

theorem zip_range'_snd {l : List Nat} :
    ∀ {s n : Nat} {e : Nat × Nat}, e ∈ l.zip (List.range' s n) →
      s ≤ e.2 := by
  intro s n e he
  have h2 := (List.of_mem_zip he).2
  rw [List.mem_range'_1] at h2
  omega

theorem pass_labels (v : List Nat) :
    ∀ (d i0 c cc : Nat), (∀ x ∈ v, 1 ≤ x) → d < v.length →
    ((applyWord (v.take d) (c + 1) = v.getD d 0 ∨
      applyWord (v.take d) (c + 1) = v.getD d 0 + 1) →
      ∃ u, labelsAt (v.zip (List.range' i0 v.length)) c cc (i0 + d) = [u] ∧
        u % 2 = (cc + c + 1 + applyWord (v.take d) (c + 1)) % 2) ∧
    (¬ (applyWord (v.take d) (c + 1) = v.getD d 0 ∨
        applyWord (v.take d) (c + 1) = v.getD d 0 + 1) →
      labelsAt (v.zip (List.range' i0 v.length)) c cc (i0 + d) = []) := by
  induction v with
  | nil =>
    intro d i0 c cc _ hd
    simp at hd
  | cons y rest ih =>
    intro d i0 c cc hv hd
    have hy : 1 ≤ y := hv y (List.mem_cons_self _ _)
    have hrest : ∀ x ∈ rest, 1 ≤ x :=
      fun x hx => hv x (List.mem_cons_of_mem _ hx)
    have hzip : (y :: rest).zip (List.range' i0 (y :: rest).length)
        = (y, i0) :: rest.zip (List.range' (i0 + 1) rest.length) := rfl
    rw [hzip]
    cases d with
    | zero =>
      rw [List.take_zero, applyWord_nil, List.getD_cons_zero]
      have htail : ∀ (c' cc' : Nat),
          labelsAt (rest.zip (List.range' (i0 + 1) rest.length)) c' cc'
            (i0 + 0) = [] := by
        intro c' cc'
        refine labelsAt_not_mem _ c' cc' (i0 + 0) ?_
        intro e he
        have := zip_range'_snd he
        omega
      constructor
      · intro heng
        have hengy : y = c ∨ y = c + 1 := by omega
        refine ⟨cc, ?_, by omega⟩
        rw [labelsAt_eng i0 cc (i0 + 0) _ hengy, if_pos (by omega), htail]
        rfl
      · intro hneng
        have hnengy : ¬ (y = c ∨ y = c + 1) := by omega
        rw [labelsAt_skip i0 cc (i0 + 0) _ hnengy, htail]
    | succ d =>
      have htake : (y :: rest).take (d + 1) = y :: rest.take d :=
        List.take_succ_cons
      have hgetD : (y :: rest).getD (d + 1) 0 = rest.getD d 0 :=
        List.getD_cons_succ
      rw [htake, hgetD, applyWord_cons]
      have hdlen : d < rest.length := by
        simp at hd
        omega
      by_cases heng : y = c ∨ y = c + 1
      · by_cases h1 : y = c + 1
        · have hal : applyLetter y (c + 1) = (c + 1) + 1 :=
            applyLetter_eq_succ h1
          have hIH := ih d (i0 + 1) (c + 1) (cc + 1) hrest hdlen
          rw [hal]
          rw [labelsAt_eng i0 cc (i0 + (d + 1)) _ heng, if_neg (by omega),
            if_pos h1, List.nil_append]
          have hpos : i0 + 1 + d = i0 + (d + 1) := by omega
          rw [hpos] at hIH
          constructor
          · intro he
            obtain ⟨u, hu1, hu2⟩ := hIH.1 he
            exact ⟨u, hu1, by omega⟩
          · exact hIH.2
        · have hyc : y = c := by omega
          have hc1 : 1 ≤ c := by omega
          have hal : applyLetter y (c + 1) = c := applyLetter_eq_pred hyc hy
          have hIH := ih d (i0 + 1) (c - 1) (cc + 1) hrest hdlen
          have hcm : c - 1 + 1 = c := by omega
          rw [hcm] at hIH
          rw [hal]
          rw [labelsAt_eng i0 cc (i0 + (d + 1)) _ heng, if_neg (by omega),
            if_neg h1, List.nil_append]
          have hpos : i0 + 1 + d = i0 + (d + 1) := by omega
          rw [hpos] at hIH
          constructor
          · intro he
            obtain ⟨u, hu1, hu2⟩ := hIH.1 he
            refine ⟨u, hu1, ?_⟩
            have : (cc + 1 + (c - 1) + 1 + applyWord (rest.take d) c) % 2
                = (cc + c + 1 + applyWord (rest.take d) c) % 2 := by
              omega
            omega
          · exact hIH.2
      · have hal : applyLetter y (c + 1) = c + 1 := applyLetter_eq_skip heng
        have hIH := ih d (i0 + 1) c cc hrest hdlen
        rw [hal]
        rw [labelsAt_skip i0 cc (i0 + (d + 1)) _ heng]
        have hpos : i0 + 1 + d = i0 + (d + 1) := by omega
        rw [hpos] at hIH
        exact hIH

end LB

namespace LB

theorem flatSched_succ (w : List Nat) (j : Nat) :
    flatSched w (j + 1) = evPos w ++ flatSched w j := by
  unfold flatSched
  rw [List.replicate_succ, List.flatten_cons]

theorem evPos_map_fst (w : List Nat) : (evPos w).map Prod.fst = w := by
  unfold evPos
  exact List.map_fst_zip _ _ (by rw [List.length_range'])

theorem evPos_letters {w : List Nat} (hw : ∀ x ∈ w, 1 ≤ x) :
    ∀ e ∈ evPos w, 1 ≤ e.1 := by
  intro e he
  exact hw e.1 (List.of_mem_zip he).1

theorem evPos_idx {w : List Nat} : ∀ e ∈ evPos w, e.2 < w.length := by
  intro e he
  have := (List.of_mem_zip he).2
  rw [List.mem_range'_1] at this
  omega

theorem cAfterEv_evPos {w : List Nat} (hw : ∀ x ∈ w, 1 ≤ x) (c : Nat) :
    cAfterEv (evPos w) c = applyWord w (c + 1) - 1 := by
  rw [cAfterEv_applyWord _ c (evPos_letters hw), evPos_map_fst]


theorem countP_range_succ (f : Nat → Bool) (j : Nat) :
    (List.range (j + 1)).countP f
      = (if f 0 then 1 else 0) + (List.range j).countP (fun k => f (k + 1)) := by
  rw [List.range_succ_eq_map, List.countP_cons, List.countP_map]
  have h : (f ∘ Nat.succ) = fun k => f (k + 1) := rfl
  rw [h]
  omega

theorem flat_labels (w : List Nat) (hw : ∀ x ∈ w, 1 ≤ x) (p : Nat)
    (hp : p < w.length) :
    ∀ (j : Nat), ∀ (c cc : Nat),
    ((labelsAt (flatSched w j) c cc p).length
      = (List.range j).countP (fun k =>
          decide (applyWord (w.take p) (iterF w k c + 1) = w.getD p 0 ∨
            applyWord (w.take p) (iterF w k c + 1) = w.getD p 0 + 1))) ∧
    ((labelsAt (flatSched w j) c cc p).countP (fun v => v % 2 = 0)
      = (List.range j).countP (fun k =>
          decide ((applyWord (w.take p) (iterF w k c + 1) = w.getD p 0 ∨
            applyWord (w.take p) (iterF w k c + 1) = w.getD p 0 + 1) ∧
            (applyWord (w.take p) (iterF w k c + 1)) % 2 = (cc + c + 1) % 2)))
    := by
  intro j
  induction j with
  | zero =>
    intro c cc
    constructor <;> rfl
  | succ j ih =>
    intro c cc
    rw [flatSched_succ, labelsAt_append]
    have hIH := ih (cAfterEv (evPos w) c) (cc + engCount (evPos w) c)
    have hpar : (cc + engCount (evPos w) c + cAfterEv (evPos w) c + 1) % 2
        = (cc + c + 1) % 2 := by
      have := parity_inv (evPos w) c cc (evPos_letters hw)
      omega
    have hiter : ∀ k, iterF w (k + 1) c
        = iterF w k (cAfterEv (evPos w) c) := by
      intro k
      rw [iterF_succ, cAfterEv_evPos hw c]
    simp only [← hiter, hpar] at hIH
    have hpass := pass_labels w p 0 c cc hw hp
    simp only [Nat.zero_add] at hpass
    rw [show (w.zip (List.range' 0 w.length)) = evPos w from rfl] at hpass
    rw [countP_range_succ, countP_range_succ]
    simp only [show iterF w 0 c = c from rfl]
    constructor
    · rcases Classical.em (applyWord (w.take p) (c + 1) = w.getD p 0 ∨
          applyWord (w.take p) (c + 1) = w.getD p 0 + 1) with he | he
      · obtain ⟨u, hu1, hu2⟩ := hpass.1 he
        rw [List.length_append, hu1, hIH.1, decide_eq_true he]
        simp
      · rw [List.length_append, hpass.2 he, hIH.1, decide_eq_false he]
        simp
    · rcases Classical.em (applyWord (w.take p) (c + 1) = w.getD p 0 ∨
          applyWord (w.take p) (c + 1) = w.getD p 0 + 1) with he | he
      · obtain ⟨u, hu1, hu2⟩ := hpass.1 he
        rw [List.countP_append, hu1, hIH.2]
        rcases Classical.em ((applyWord (w.take p) (c + 1)) % 2
            = (cc + c + 1) % 2) with hq | hq
        · have hu0 : u % 2 = 0 := by omega
          have h1 : List.countP (fun v => decide (v % 2 = 0)) [u] = 1 := by
            simp [List.countP_cons, hu0]
          rw [h1, decide_eq_true (And.intro he hq)]
          simp
        · have hu0 : ¬ u % 2 = 0 := by omega
          have h1 : List.countP (fun v => decide (v % 2 = 0)) [u] = 0 := by
            simp [List.countP_cons, hu0]
          rw [h1, decide_eq_false (fun hcon => hq hcon.2)]
          simp
      · rw [List.countP_append, hpass.2 he, hIH.2,
          decide_eq_false (fun hcon => he hcon.1)]
        simp

/-! ## The strand orbit of an emitted word -/

theorem cAfterEv_append (l1 l2 : List (Nat × Nat)) :
    ∀ c, cAfterEv (l1 ++ l2) c = cAfterEv l2 (cAfterEv l1 c) := by
  induction l1 with
  | nil =>
    intro c
    simp [cAfterEv]
  | cons e rest ih =>
    rcases e with ⟨x, idx⟩
    intro c
    rw [List.cons_append]
    by_cases h : x = c ∨ x = c + 1
    · rw [cAfterEv_eng idx _ h, cAfterEv_eng idx _ h, ih]
    · rw [cAfterEv_skip idx _ h, cAfterEv_skip idx _ h, ih]

theorem cAfterEv_flatSched {w : List Nat} (hw : ∀ x ∈ w, 1 ≤ x) :
    ∀ (j : Nat) (c : Nat), cAfterEv (flatSched w j) c = iterF w j c := by
  intro j
  induction j with
  | zero => intro c; rfl
  | succ j ih =>
    intro c
    rw [flatSched_succ, cAfterEv_append, cAfterEv_evPos hw, ih, iterF_succ]

theorem applyWord_applyWordInv {b : List Nat} (hb : ∀ x ∈ b, 1 ≤ x)
    (p : Nat) : applyWord b (applyWordInv b p) = p := by
  induction b generalizing p with
  | nil => rfl
  | cons a t ih =>
    unfold applyWord applyWordInv
    rw [List.foldl_cons, List.foldr_cons]
    have h1 : applyLetter a (List.foldr (fun x q => applyLetter x q) p t)
        = applyLetter a (applyWordInv t p) := rfl
    rw [h1, applyLetter_invol (hb a (List.mem_cons_self a t))]
    exact ih (fun x hx => hb x (List.mem_cons_of_mem a hx)) p

theorem applyWordInv_ge_one {b : List Nat} (hb : ∀ x ∈ b, 1 ≤ x) :
    ∀ {p : Nat}, 1 ≤ p → 1 ≤ applyWordInv b p := by
  induction b with
  | nil => intro p hp; exact hp
  | cons a t ih =>
    intro p hp
    unfold applyWordInv
    rw [List.foldr_cons]
    exact applyLetter_ge_one (hb a (List.mem_cons_self a t))
      (ih (fun x hx => hb x (List.mem_cons_of_mem a hx)) hp)

theorem applyWordInv_le {b : List Nat} {m : Nat} (hb : ∀ x ∈ b, x ≤ m) :
    ∀ {p : Nat}, p ≤ m + 1 → applyWordInv b p ≤ m + 1 := by
  induction b with
  | nil => intro p hp; exact hp
  | cons a t ih =>
    intro p hp
    unfold applyWordInv
    rw [List.foldr_cons]
    exact applyLetter_le (hb a (List.mem_cons_self a t))
      (ih (fun x hx => hb x (List.mem_cons_of_mem a hx)) hp)

theorem iterF_mod_period {b : List Nat} {d : Nat} (hd : 1 ≤ d)
    (hper : iterF b d 0 = 0) :
    ∀ r, ∃ r' < d, iterF b r' 0 = iterF b r 0 := by
  intro r
  induction r using Nat.strong_induction_on with
  | _ r ih =>
    by_cases hlt : r < d
    · exact ⟨r, hlt, rfl⟩
    · obtain ⟨r', hr', heq⟩ := ih (r - d) (by omega)
      refine ⟨r', hr', ?_⟩
      have hsplit : r = d + (r - d) := by omega
      rw [heq]
      conv_rhs => rw [hsplit, iterF_add, hper]

theorem orbit_no_early_return {b : List Nat} (hne : b ≠ [])
    (hb : ∀ x ∈ b, 1 ≤ x) (h1 : numberOfComponents b = 1) :
    ∀ k, 1 ≤ k → k < max b + 1 → iterF b k 0 ≠ 0 := by
  intro k hk1 hksz hk0
  have hcover : Finset.range (max b + 1) ⊆
      (Finset.range k).image (fun r => iterF b r 0) := by
    intro j hj
    rw [Finset.mem_range] at hj
    obtain ⟨r, hr⟩ := components_one_single_orbit hne hb h1 j hj
    obtain ⟨r', hr'k, hr'eq⟩ := iterF_mod_period hk1 hk0 r
    rw [Finset.mem_image]
    exact ⟨r', Finset.mem_range.mpr hr'k, by rw [hr'eq, hr]⟩
  have hcard := Finset.card_le_card hcover
  have himg := Finset.card_image_le
    (s := Finset.range k) (f := fun r => iterF b r 0)
  rw [Finset.card_range] at hcard
  rw [Finset.card_range] at himg
  omega

theorem orbit_return {b : List Nat} (hne : b ≠ [])
    (hb : ∀ x ∈ b, 1 ≤ x) (h1 : numberOfComponents b = 1) :
    iterF b (max b + 1) 0 = 0 := by
  obtain ⟨d, hd0, hdsz, hdret⟩ := iterF_period hb (by omega : 0 < max b + 1)
  rcases Nat.lt_or_ge d (max b + 1) with hlt | hge
  · exact absurd hdret (orbit_no_early_return hne hb h1 d hd0 hlt)
  · have : d = max b + 1 := by omega
    rw [← this]
    exact hdret

theorem orbit_perm {b : List Nat} (hne : b ≠ [])
    (hb : ∀ x ∈ b, 1 ≤ x) (h1 : numberOfComponents b = 1) :
    ((List.range (max b + 1)).map (fun k => iterF b k 0)).Perm
      (List.range (max b + 1)) := by
  have hsub : List.range (max b + 1) ⊆
      (List.range (max b + 1)).map (fun k => iterF b k 0) := by
    intro j hj
    rw [List.mem_range] at hj
    obtain ⟨r, hr⟩ := components_one_single_orbit hne hb h1 j hj
    obtain ⟨r', hr'k, hr'eq⟩ := iterF_mod_period
      (by omega : 1 ≤ max b + 1) (orbit_return hne hb h1) r
    rw [List.mem_map]
    exact ⟨r', List.mem_range.mpr hr'k, by rw [hr'eq, hr]⟩
  have hsp := List.subperm_of_subset (List.nodup_range _) hsub
  exact (hsp.perm_of_length_le (by simp)).symm

theorem countP_compose_orbit {b : List Nat} (hne : b ≠ [])
    (hb : ∀ x ∈ b, 1 ≤ x) (h1 : numberOfComponents b = 1) (g : Nat → Bool) :
    (List.range (max b + 1)).countP (fun k => g (iterF b k 0))
      = (List.range (max b + 1)).countP g := by
  have hcomp : (fun k => g (iterF b k 0)) = g ∘ (fun k => iterF b k 0) := rfl
  rw [hcomp, ← List.countP_map]
  exact (orbit_perm hne hb h1).countP_eq g

theorem countP_range_eq_single (a : Nat) :
    ∀ (n : Nat), a < n →
      (List.range n).countP (fun c => decide (c = a)) = 1 := by
  intro n
  induction n with
  | zero => intro h; omega
  | succ n ih =>
    intro h
    rw [List.range_succ, List.countP_append]
    rcases Nat.lt_or_ge a n with hlt | hge
    · rw [ih hlt]
      have : List.countP (fun c => decide (c = a)) [n] = 0 := by
        rw [List.countP_cons, List.countP_nil,
          decide_eq_false (by omega : ¬ n = a)]
        simp
      omega
    · have han : a = n := by omega
      have hz : List.countP (fun c => decide (c = a)) (List.range n) = 0 := by
        rw [List.countP_eq_zero]
        intro c hc
        rw [List.mem_range] at hc
        simp only [decide_eq_true_eq]
        omega
      rw [hz]
      rw [List.countP_cons, List.countP_nil, decide_eq_true han.symm]
      simp

theorem countP_or_split (a b : Nat) (hab : ¬ a = b) :
    ∀ (l : List Nat),
    l.countP (fun c => decide (c = a ∨ c = b))
      = l.countP (fun c => decide (c = a))
        + l.countP (fun c => decide (c = b)) := by
  intro l
  induction l with
  | nil => rfl
  | cons h t ih =>
    rw [List.countP_cons, List.countP_cons, List.countP_cons, ih]
    have e1 : (if true = true then (1 : Nat) else 0) = 1 := rfl
    have e0 : (if false = true then (1 : Nat) else 0) = 0 := rfl
    by_cases ha : h = a <;> by_cases hb2 : h = b
    · omega
    · rw [decide_eq_true (Or.inl ha), decide_eq_true ha,
        decide_eq_false hb2, e1, e0]
      omega
    · rw [decide_eq_true (Or.inr hb2), decide_eq_true hb2,
        decide_eq_false ha, e1, e0]
      omega
    · rw [decide_eq_false (by tauto), decide_eq_false ha,
        decide_eq_false hb2, e0]
      omega

theorem engagement_count {w : List Nat} (hne : w ≠ [])
    (hw : ∀ x ∈ w, 1 ≤ x) (h1 : numberOfComponents w = 1)
    {p : Nat} (hp : p < w.length) :
    ((List.range (max w + 1)).countP (fun k =>
        decide (applyWord (w.take p) (iterF w k 0 + 1) = w.getD p 0 ∨
          applyWord (w.take p) (iterF w k 0 + 1) = w.getD p 0 + 1)) = 2) ∧
    ((List.range (max w + 1)).countP (fun k =>
        decide ((applyWord (w.take p) (iterF w k 0 + 1) = w.getD p 0 ∨
          applyWord (w.take p) (iterF w k 0 + 1) = w.getD p 0 + 1) ∧
          (applyWord (w.take p) (iterF w k 0 + 1)) % 2 = 0)) = 1) := by
  have hxmem : w.getD p 0 ∈ w := by
    rw [List.getD_eq_getElem w 0 hp]
    exact List.getElem_mem hp
  have hx1 : 1 ≤ w.getD p 0 := hw _ hxmem
  have hxm : w.getD p 0 ≤ max w := le_max_of_mem hxmem
  have ht1 : ∀ y ∈ w.take p, 1 ≤ y :=
    fun y hy => hw y (List.mem_of_mem_take hy)
  have htm : ∀ y ∈ w.take p, y ≤ max w :=
    fun y hy => le_max_of_mem (List.mem_of_mem_take hy)
  have ha1 : 1 ≤ applyWordInv (w.take p) (w.getD p 0) :=
    applyWordInv_ge_one ht1 hx1
  have ham : applyWordInv (w.take p) (w.getD p 0) ≤ max w + 1 :=
    applyWordInv_le htm (by omega)
  have hb1 : 1 ≤ applyWordInv (w.take p) (w.getD p 0 + 1) :=
    applyWordInv_ge_one ht1 (by omega)
  have hbm : applyWordInv (w.take p) (w.getD p 0 + 1) ≤ max w + 1 :=
    applyWordInv_le htm (by omega)
  have hA : applyWord (w.take p) (applyWordInv (w.take p) (w.getD p 0))
      = w.getD p 0 := applyWord_applyWordInv ht1 _
  have hB : applyWord (w.take p) (applyWordInv (w.take p) (w.getD p 0 + 1))
      = w.getD p 0 + 1 := applyWord_applyWordInv ht1 _
  have hiffA : ∀ c : Nat, applyWord (w.take p) (c + 1) = w.getD p 0 ↔
      c = applyWordInv (w.take p) (w.getD p 0) - 1 := by
    intro c
    constructor
    · intro h
      have : c + 1 = applyWordInv (w.take p) (w.getD p 0) :=
        applyWord_inj ht1 (by rw [h, hA])
      omega
    · intro h
      have hc1 : c + 1 = applyWordInv (w.take p) (w.getD p 0) := by omega
      rw [hc1, hA]
  have hiffB : ∀ c : Nat, applyWord (w.take p) (c + 1) = w.getD p 0 + 1 ↔
      c = applyWordInv (w.take p) (w.getD p 0 + 1) - 1 := by
    intro c
    constructor
    · intro h
      have : c + 1 = applyWordInv (w.take p) (w.getD p 0 + 1) :=
        applyWord_inj ht1 (by rw [h, hB])
      omega
    · intro h
      have hc1 : c + 1 = applyWordInv (w.take p) (w.getD p 0 + 1) := by omega
      rw [hc1, hB]
  have hab : ¬ (applyWordInv (w.take p) (w.getD p 0) - 1
      = applyWordInv (w.take p) (w.getD p 0 + 1) - 1) := by
    intro h
    have : applyWordInv (w.take p) (w.getD p 0)
        = applyWordInv (w.take p) (w.getD p 0 + 1) := by omega
    have hxx : w.getD p 0 = w.getD p 0 + 1 := by
      conv_lhs => rw [← hA]
      rw [this, hB]
    omega
  have halt : applyWordInv (w.take p) (w.getD p 0) - 1 < max w + 1 := by
    omega
  have hblt : applyWordInv (w.take p) (w.getD p 0 + 1) - 1 < max w + 1 := by
    omega
  constructor
  · have hstep := countP_compose_orbit hne hw h1
      (fun c => decide (applyWord (w.take p) (c + 1) = w.getD p 0 ∨
        applyWord (w.take p) (c + 1) = w.getD p 0 + 1))
    rw [hstep]
    rw [List.countP_congr (q := fun c =>
        decide (c = applyWordInv (w.take p) (w.getD p 0) - 1 ∨
          c = applyWordInv (w.take p) (w.getD p 0 + 1) - 1))
      (fun c _ => by
        rw [decide_eq_true_eq, decide_eq_true_eq, hiffA c, hiffB c])]
    rw [countP_or_split _ _ hab,
      countP_range_eq_single _ _ halt, countP_range_eq_single _ _ hblt]
  · have hstep := countP_compose_orbit hne hw h1
      (fun c => decide ((applyWord (w.take p) (c + 1) = w.getD p 0 ∨
        applyWord (w.take p) (c + 1) = w.getD p 0 + 1) ∧
        (applyWord (w.take p) (c + 1)) % 2 = 0))
    rw [hstep]
    by_cases hx2 : w.getD p 0 % 2 = 0
    · rw [List.countP_congr (q := fun c =>
          decide (c = applyWordInv (w.take p) (w.getD p 0) - 1))
        (fun c _ => by
          rw [decide_eq_true_eq, decide_eq_true_eq]
          constructor
          · rintro ⟨hor, hev⟩
            rcases hor with h | h
            · exact (hiffA c).mp h
            · rw [h] at hev
              omega
          · intro h
            have hq := (hiffA c).mpr h
            exact ⟨Or.inl hq, by rw [hq]; exact hx2⟩)]
      exact countP_range_eq_single _ _ halt
    · rw [List.countP_congr (q := fun c =>
          decide (c = applyWordInv (w.take p) (w.getD p 0 + 1) - 1))
        (fun c _ => by
          rw [decide_eq_true_eq, decide_eq_true_eq]
          constructor
          · rintro ⟨hor, hev⟩
            rcases hor with h | h
            · rw [h] at hev
              omega
            · exact (hiffB c).mp h
          · intro h
            have hq := (hiffB c).mpr h
            exact ⟨Or.inr hq, by rw [hq]; omega⟩)]
      exact countP_range_eq_single _ _ hblt

/-! ## The crossing labels of the full traversal, position by position -/

theorem labels_at_pos {w : List Nat} (hne : w ≠ [])
    (hw : ∀ x ∈ w, 1 ≤ x) (h1 : numberOfComponents w = 1)
    {p : Nat} (hp : p < w.length) :
    (labelsAt (flatSched w (max w + 1)) 0 1 p).length = 2 ∧
    (labelsAt (flatSched w (max w + 1)) 0 1 p).countP
      (fun v => decide (v % 2 = 0)) = 1 := by
  have hfl := flat_labels w hw p hp (max w + 1) 0 1
  have hec := engagement_count hne hw h1 hp
  constructor
  · rw [hfl.1]
    exact hec.1
  · have hfl2 := hfl.2
    simp only [show ((1 : Nat) + 0 + 1) % 2 = 0 from rfl] at hfl2
    rw [hfl2]
    exact hec.2

theorem labels_nodup (l : List (Nat × Nat)) :
    ∀ c cc p, (labelsAt l c cc p).Nodup := by
  induction l with
  | nil => intro c cc p; exact List.nodup_nil
  | cons e rest ih =>
    rcases e with ⟨x, idx⟩
    intro c cc p
    by_cases h : x = c ∨ x = c + 1
    · rw [labelsAt_eng idx cc p _ h]
      by_cases hip : idx = p
      · rw [if_pos hip, List.singleton_append, List.nodup_cons]
        refine ⟨?_, ih _ _ _⟩
        intro hmem
        have := labels_bounds rest _ _ _ _ hmem
        omega
      · rw [if_neg hip, List.nil_append]
        exact ih _ _ _
    · rw [labelsAt_skip idx cc p _ h]
      exact ih _ _ _

theorem labels_pos (l : List (Nat × Nat)) (c cc p v : Nat)
    (hv : v ∈ labelsAt l c cc p) : ∃ e ∈ l, e.2 = p := by
  by_contra hno
  push_neg at hno
  rw [labelsAt_not_mem l c cc p hno] at hv
  simp at hv

theorem labels_flatten_nodup (l : List (Nat × Nat)) (c cc n : Nat) :
    ((List.range n).map (fun p => labelsAt l c cc p)).flatten.Nodup := by
  rw [List.nodup_flatten]
  constructor
  · intro s hs
    rw [List.mem_map] at hs
    obtain ⟨p, _, rfl⟩ := hs
    exact labels_nodup l c cc p
  · rw [List.pairwise_map]
    have hpw := List.pairwise_lt_range n
    refine hpw.imp ?_
    intro a b hlt
    intro v hv hv'
    exact absurd (labels_disjoint l c cc a b v hv hv') (by omega)

theorem labels_flatten_mem (l : List (Nat × Nat)) (c cc n : Nat)
    (hidx : ∀ e ∈ l, e.2 < n) (v : Nat) :
    v ∈ ((List.range n).map (fun p => labelsAt l c cc p)).flatten ↔
      cc ≤ v ∧ v < cc + engCount l c := by
  rw [List.mem_flatten]
  constructor
  · rintro ⟨s, hs, hv⟩
    rw [List.mem_map] at hs
    obtain ⟨p, _, rfl⟩ := hs
    exact labels_bounds l c cc p v hv
  · rintro ⟨hv1, hv2⟩
    obtain ⟨p, hp⟩ := labels_cover l c cc v hv1 hv2
    obtain ⟨e, he, hep⟩ := labels_pos l c cc p v hp
    refine ⟨labelsAt l c cc p,
      List.mem_map.mpr ⟨p, List.mem_range.mpr ?_, rfl⟩, hp⟩
    rw [← hep]
    exact hidx e he

theorem labels_flatten_perm (l : List (Nat × Nat)) (c cc n : Nat)
    (hidx : ∀ e ∈ l, e.2 < n) :
    ((List.range n).map (fun p => labelsAt l c cc p)).flatten.Perm
      (List.range' cc (engCount l c)) := by
  rw [List.perm_ext_iff_of_nodup (labels_flatten_nodup l c cc n)
    (List.nodup_range' _ _)]
  intro v
  rw [labels_flatten_mem l c cc n hidx v, List.mem_range'_1]

theorem flatSched_idx {w : List Nat} (j : Nat) :
    ∀ e ∈ flatSched w j, e.2 < w.length := by
  intro e he
  unfold flatSched at he
  rw [List.mem_flatten] at he
  obtain ⟨s, hs, hes⟩ := he
  rw [List.eq_of_mem_replicate hs] at hes
  exact evPos_idx e hes

theorem engCount_total {w : List Nat} (hne : w ≠ [])
    (hw : ∀ x ∈ w, 1 ≤ x) (h1 : numberOfComponents w = 1) :
    engCount (flatSched w (max w + 1)) 0 = 2 * w.length := by
  have hperm := labels_flatten_perm (flatSched w (max w + 1)) 0 1 w.length
    (flatSched_idx _)
  have hlen := hperm.length_eq
  rw [List.length_range', List.length_flatten, List.map_map] at hlen
  have hrep : (List.range w.length).map
      (List.length ∘ fun p => labelsAt (flatSched w (max w + 1)) 0 1 p)
      = List.replicate w.length 2 := by
    rw [List.eq_replicate_iff]
    refine ⟨by simp, ?_⟩
    intro s hs
    rw [List.mem_map] at hs
    obtain ⟨p, hpmem, rfl⟩ := hs
    rw [List.mem_range] at hpmem
    simp only [Function.comp_apply]
    exact (labels_at_pos hne hw h1 hpmem).1
  rw [hrep, List.sum_replicate, smul_eq_mul] at hlen
  omega

/-! ## Extracting the even labels -/

theorem filter_even_range'_odd :
    ∀ (n s : Nat), s % 2 = 1 →
    (List.range' s (2 * n)).filter (fun v => decide (v % 2 = 0))
      = (List.range n).map (fun i => s + 2 * i + 1) := by
  intro n
  induction n with
  | zero => intro s _; rfl
  | succ n ih =>
    intro s hs
    have h2 : 2 * (n + 1) = (2 * n) + 1 + 1 := by omega
    rw [h2, List.range'_succ, List.range'_succ, List.filter_cons,
      List.filter_cons, decide_eq_false (by omega : ¬ s % 2 = 0),
      decide_eq_true (by omega : (s + 1) % 2 = 0),
      ih (s + 1 + 1) (by omega)]
    simp only [Bool.false_eq_true, if_false, eq_self_iff_true, if_true]
    rw [List.range_succ_eq_map, List.map_cons, List.map_map]
    have h0 : s + 2 * 0 + 1 = s + 1 := by omega
    rw [h0]
    congr 1
    apply List.map_congr_left
    intro i _
    simp only [Function.comp_apply]
    omega

theorem flatten_singletons (d : Nat) :
    ∀ (L : List (List Nat)), (∀ s ∈ L, ∃ u, s = [u]) →
      L.flatten = L.map (fun s => s.getLastD d) := by
  intro L
  induction L with
  | nil => intro _; rfl
  | cons s rest ih =>
    intro hL
    obtain ⟨u, hu⟩ := hL s (List.mem_cons_self _ _)
    rw [List.flatten_cons, List.map_cons,
      ih (fun t ht => hL t (List.mem_cons_of_mem _ ht)), hu]
    rfl

theorem filter_even_singleton {L : List Nat}
    (h2 : L.countP (fun v => decide (v % 2 = 0)) = 1) :
    ∃ u, L.filter (fun v => decide (v % 2 = 0)) = [u] ∧ u % 2 = 0 := by
  rw [List.countP_eq_length_filter] at h2
  obtain ⟨u, hu⟩ := List.length_eq_one.mp h2
  refine ⟨u, hu, ?_⟩
  have humem : u ∈ L.filter (fun v => decide (v % 2 = 0)) := by
    rw [hu]
    exact List.mem_singleton.mpr rfl
  rw [List.mem_filter] at humem
  simpa using humem.2

theorem filter_flatten_map (p : Nat → Bool) :
    ∀ (L : List (List Nat)),
    L.flatten.filter p = (L.map (fun s => s.filter p)).flatten := by
  intro L
  induction L with
  | nil => rfl
  | cons s rest ih =>
    rw [List.flatten_cons, List.filter_append, ih, List.map_cons,
      List.flatten_cons]

theorem e_values_perm {w : List Nat} (hne : w ≠ [])
    (hw : ∀ x ∈ w, 1 ≤ x) (h1 : numberOfComponents w = 1) :
    ((List.range w.length).map (fun p =>
      ((labelsAt (flatSched w (max w + 1)) 0 1 p).filter
        (fun v => decide (v % 2 = 0))).getLastD 0)).Perm
      ((List.range w.length).map (fun i => 2 * i + 2)) := by
  have hmapsing : ∀ s ∈ (List.range w.length).map
      (fun p => (labelsAt (flatSched w (max w + 1)) 0 1 p).filter
        (fun v => decide (v % 2 = 0))), ∃ u, s = [u] := by
    intro s hs
    rw [List.mem_map] at hs
    obtain ⟨p, hpmem, rfl⟩ := hs
    rw [List.mem_range] at hpmem
    obtain ⟨u, hu, _⟩ := filter_even_singleton
      (labels_at_pos hne hw h1 hpmem).2
    exact ⟨u, hu⟩
  have hflat := flatten_singletons 0 _ hmapsing
  rw [List.map_map] at hflat
  simp only [Function.comp_def] at hflat
  rw [← hflat]
  have hff := filter_flatten_map (fun v => decide (v % 2 = 0))
    ((List.range w.length).map
      (fun p => labelsAt (flatSched w (max w + 1)) 0 1 p))
  rw [List.map_map] at hff
  simp only [Function.comp_def] at hff
  rw [← hff]
  have hperm := (labels_flatten_perm (flatSched w (max w + 1)) 0 1 w.length
    (flatSched_idx _)).filter (fun v => decide (v % 2 = 0))
  rw [engCount_total hne hw h1] at hperm
  refine hperm.trans ?_
  rw [filter_even_range'_odd w.length 1 rfl]
  have hmc : (List.range w.length).map (fun i => 1 + 2 * i + 1)
      = (List.range w.length).map (fun i => 2 * i + 2) := by
    apply List.map_congr_left
    intro i _
    omega
  rw [hmc]

/-! ## Running the traversal loop -/

theorem flatSched_one (v : List Nat) : flatSched v 1 = evPos v := by
  unfold flatSched
  simp

theorem dtPass_fold :
    ∀ (v : List Nat) (st : List IntPair × Nat × Nat) (i0 : Nat),
    (v.foldl (fun (s : (List IntPair × Nat × Nat) × Nat) x =>
        (dtLetter x s.2 s.1, s.2 + 1)) (st, i0)).1
      = dtSeq (v.zip (List.range' i0 v.length)) st := by
  intro v
  induction v with
  | nil => intro st i0; rfl
  | cons x xs ih =>
    intro st i0
    rw [List.foldl_cons, List.length_cons, List.range'_succ,
      List.zip_cons_cons, dtSeq_cons]
    exact ih (dtLetter x i0 st) (i0 + 1)

theorem dtPass_eq (v : List Nat) (st : List IntPair × Nat × Nat) :
    dtPass v st = dtSeq (evPos v) st := by
  unfold dtPass evPos
  exact dtPass_fold v st 0

theorem dtLoop_run (v : List Nat) :
    ∀ (m : Nat) (st : List IntPair × Nat × Nat) (fuel passed : Nat),
    1 ≤ m → m ≤ fuel →
    (∀ k, 1 ≤ k → k < m → (dtSeq (flatSched v k) st).2.1 ≠ 0) →
    (dtSeq (flatSched v m) st).2.1 = 0 →
    dtLoop v fuel st passed
      = some ((dtSeq (flatSched v m) st).1, passed + m) := by
  intro m
  induction m with
  | zero => intro st fuel passed h1; omega
  | succ m ih =>
    intro st fuel passed _ hfuel hmid hend
    obtain ⟨f, rfl⟩ : ∃ f, fuel = f + 1 := ⟨fuel - 1, by omega⟩
    show (let st' := dtPass v st;
      if st'.2.1 = 0 then some (st'.1, passed + 1)
      else dtLoop v f st' (passed + 1)) = _
    rw [dtPass_eq]
    cases Nat.eq_zero_or_pos m with
    | inl hm0 =>
      subst hm0
      rw [flatSched_one] at hend
      simp [hend, flatSched_one]
    | inr hmpos =>
      have hne1 : (dtSeq (evPos v) st).2.1 ≠ 0 := by
        have := hmid 1 (by omega) (by omega)
        rw [flatSched_one] at this
        exact this
      simp only [if_neg hne1]
      have hcomp : ∀ k, dtSeq (flatSched v k) (dtSeq (evPos v) st)
          = dtSeq (flatSched v (k + 1)) st := by
        intro k
        rw [flatSched_succ, dtSeq_append]
      have := ih (dtSeq (evPos v) st) f (passed + 1) (by omega) (by omega)
        (fun k hk1 hkm => by
          rw [hcomp k]
          exact hmid (k + 1) (by omega) (by omega))
        (by rw [hcomp m]; exact hend)
      rw [this, hcomp m]
      have harith : passed + 1 + m = passed + (m + 1) := by omega
      rw [harith]

theorem final_recs_e {w : List Nat} (hw : ∀ x ∈ w, 1 ≤ x)
    {p : Nat} (hp : p < w.length) :
    ((dtSeq (flatSched w (max w + 1))
        (List.replicate w.length ⟨0, 0, false⟩, 0, 1)).1.getD p
          ⟨0, 0, false⟩).e
      = ((labelsAt (flatSched w (max w + 1)) 0 1 p).filter
          (fun v => v % 2 = 0)).getLastD 0 := by
  have hd := dtSeq_e (flatSched w (max w + 1))
    (List.replicate w.length ⟨0, 0, false⟩) 0 1 p
    (by rw [List.length_replicate]; exact flatSched_idx _)
    (by rw [List.length_replicate]; exact hp)
  rw [hd]
  congr 1
  rw [List.getD_eq_getElem _ _ (by rw [List.length_replicate]; exact hp),
    List.getElem_replicate]

theorem map_eq_range_getD (f : IntPair → Nat) (d : IntPair) :
    ∀ (l : List IntPair),
      l.map f = (List.range l.length).map (fun p => f (l.getD p d)) := by
  intro l
  induction l with
  | nil => rfl
  | cons a t ih =>
    rw [List.map_cons, List.length_cons, List.range_succ_eq_map,
      List.map_cons, List.map_map]
    congr 1

theorem insertByO_perm (r : IntPair) :
    ∀ (l : List IntPair), (insertByO r l).Perm (r :: l) := by
  intro l
  induction l with
  | nil => exact List.Perm.refl _
  | cons x xs ih =>
    unfold insertByO
    by_cases h : r.o < x.o
    · rw [if_pos h]
    · rw [if_neg h]
      exact List.Perm.trans (List.Perm.cons x ih) (List.Perm.swap r x xs)

theorem sortByO_perm : ∀ (l : List IntPair), (sortByO l).Perm l := by
  intro l
  induction l with
  | nil => exact List.Perm.refl _
  | cons x xs ih =>
    unfold sortByO
    exact (insertByO_perm x (sortByO xs)).trans (List.Perm.cons x ih)

theorem printDT_some {w : List Nat} (hne : w ≠ [])
    (hw : ∀ x ∈ w, 1 ≤ x) (h1 : numberOfComponents w = 1) (counter : Nat) :
    printDT w counter = some ((sortByO (dtSeq (flatSched w (max w + 1))
      (List.replicate w.length ⟨0, 0, false⟩, 0, 1)).1).map
        (fun r => (r.e : Int) * (if r.s then 1 else -1))) := by
  unfold printDT
  have hrun := dtLoop_run w (max w + 1)
    (List.replicate w.length ⟨0, 0, false⟩, 0, 1) (max w + 2) 0
    (by omega) (by omega)
    (fun k hk1 hkm => by
      rw [dtSeq_c, cAfterEv_flatSched hw]
      exact orbit_no_early_return hne hw h1 k hk1 hkm)
    (by rw [dtSeq_c, cAfterEv_flatSched hw]; exact orbit_return hne hw h1)
  rw [hrun]
  have hmx := one_le_max w
  dsimp only
  rw [if_neg (by omega)]

/-! ## Claim C6 -/

/-- C6: for every word emitted by the search driver, `printDT` succeeds
and the DT code has exactly `length w` entries, each a nonzero integer,
and the multiset of absolute values of the entries is exactly
`{2, 4, …, 2·length w}` with no repeats. -/
theorem claim_C6 (maxB1 : Int) (w : List Nat) (counter : Nat)
    (h : Emits maxB1 w) :
    ∃ dt, printDT w counter = some dt ∧ dt.length = w.length ∧
      (∀ z ∈ dt, z ≠ 0) ∧
      (dt.map Int.natAbs).Perm
        ((List.range w.length).map (fun i => 2 * i + 2)) := by
  obtain ⟨hlen, hw, _, _, _⟩ := emits_emitP h
  have h1 := (emits_components_eq_one_and_b1 h).1
  have hne : w ≠ [] := by
    intro e
    rw [e] at hlen
    simp at hlen
  have hRlen : (dtSeq (flatSched w (max w + 1))
      (List.replicate w.length ⟨0, 0, false⟩, 0, 1)).1.length
        = w.length := by
    rw [dtSeq_len, List.length_replicate]
  have habs : (((sortByO (dtSeq (flatSched w (max w + 1))
      (List.replicate w.length ⟨0, 0, false⟩, 0, 1)).1).map
        (fun r => (r.e : Int) * (if r.s then 1 else -1))).map Int.natAbs)
      = (sortByO (dtSeq (flatSched w (max w + 1))
          (List.replicate w.length ⟨0, 0, false⟩, 0, 1)).1).map
            (fun r => r.e) := by
    rw [List.map_map]
    apply List.map_congr_left
    intro r _
    simp only [Function.comp_apply]
    by_cases hrs : r.s
    · simp [hrs]
    · simp [hrs]
  have he_map : (dtSeq (flatSched w (max w + 1))
      (List.replicate w.length ⟨0, 0, false⟩, 0, 1)).1.map (fun r => r.e)
      = (List.range w.length).map (fun p =>
          ((dtSeq (flatSched w (max w + 1))
            (List.replicate w.length ⟨0, 0, false⟩, 0, 1)).1.getD p
              ⟨0, 0, false⟩).e) := by
    have hmr := map_eq_range_getD (fun r => r.e) ⟨0, 0, false⟩
      (dtSeq (flatSched w (max w + 1))
        (List.replicate w.length ⟨0, 0, false⟩, 0, 1)).1
    rw [hRlen] at hmr
    exact hmr
  have he_vals : (List.range w.length).map (fun p =>
        ((dtSeq (flatSched w (max w + 1))
          (List.replicate w.length ⟨0, 0, false⟩, 0, 1)).1.getD p
            ⟨0, 0, false⟩).e)
      = (List.range w.length).map (fun p =>
          ((labelsAt (flatSched w (max w + 1)) 0 1 p).filter
            (fun v => v % 2 = 0)).getLastD 0) := by
    apply List.map_congr_left
    intro p hpmem
    rw [List.mem_range] at hpmem
    exact final_recs_e hw hpmem
  have hperm : (((sortByO (dtSeq (flatSched w (max w + 1))
      (List.replicate w.length ⟨0, 0, false⟩, 0, 1)).1).map
        (fun r => (r.e : Int) * (if r.s then 1 else -1))).map
          Int.natAbs).Perm
      ((List.range w.length).map (fun i => 2 * i + 2)) := by
    rw [habs]
    refine ((sortByO_perm _).map (fun r => r.e)).trans ?_
    rw [he_map, he_vals]
    exact e_values_perm hne hw h1
  refine ⟨_, printDT_some hne hw h1 counter, ?_, ?_, hperm⟩
  · rw [List.length_map, (sortByO_perm _).length_eq, hRlen]
  · intro z hz hz0
    have hz2 : z.natAbs ∈ (((sortByO (dtSeq (flatSched w (max w + 1))
        (List.replicate w.length ⟨0, 0, false⟩, 0, 1)).1).map
          (fun r => (r.e : Int) * (if r.s then 1 else -1))).map
            Int.natAbs) := List.mem_map_of_mem _ hz
    rw [hperm.mem_iff, List.mem_map] at hz2
    obtain ⟨i, _, hi⟩ := hz2
    rw [hz0, Int.natAbs_zero] at hi
    omega

/-- Witness: the single word emitted at `maxB1 = 2` is `[1,1,1]`, whose
DT code has three nonzero entries with absolute values `{2, 4, 6}`. -/
theorem claim_C6_witness :
    ∃ dt, printDT [1, 1, 1] 1 = some dt ∧
      dt.length = ([1, 1, 1] : List Nat).length ∧
      (∀ z ∈ dt, z ≠ 0) ∧
      (dt.map Int.natAbs).Perm
        ((List.range ([1, 1, 1] : List Nat).length).map
          (fun i => 2 * i + 2)) :=
  claim_C6 2 [1, 1, 1] 1 ⟨14, by decide⟩

/-! ## Counting and summation helpers for the termination argument -/

theorem sum_map_add (f g : Nat → Nat) :
    ∀ (l : List Nat),
    (l.map (fun j => f j + g j)).sum = (l.map f).sum + (l.map g).sum := by
  intro l
  induction l with
  | nil => rfl
  | cons a t ih =>
    rw [List.map_cons, List.map_cons, List.map_cons, List.sum_cons,
      List.sum_cons, List.sum_cons, ih]
    omega

theorem sum_indicator_zero (x : Nat) :
    ∀ (S : List Nat), x ∉ S →
    (S.map (fun g => if x == g then 1 else 0)).sum = 0 := by
  intro S
  induction S with
  | nil => intro _; rfl
  | cons a t ih =>
    intro hx
    rw [List.map_cons, List.sum_cons,
      ih (fun hm => hx (List.mem_cons_of_mem a hm))]
    have hax : ¬ x = a := fun e => hx (e ▸ List.mem_cons_self a t)
    rw [if_neg (by simpa using hax)]

theorem sum_indicator_le_one (x : Nat) :
    ∀ (S : List Nat), S.Nodup →
    (S.map (fun g => if x == g then 1 else 0)).sum ≤ 1 := by
  intro S
  induction S with
  | nil => intro _; simp
  | cons a t ih =>
    intro hnd
    rw [List.nodup_cons] at hnd
    rw [List.map_cons, List.sum_cons]
    by_cases hax : x = a
    · subst hax
      rw [sum_indicator_zero x t hnd.1]
      have e1 : (if (x == x) = true then (1 : Nat) else 0) = 1 := by
        rw [if_pos (by simp)]
      rw [e1]
    · rw [if_neg (by simpa using hax)]
      have := ih hnd.2
      omega

theorem sum_counts_le (S : List Nat) (hS : S.Nodup) :
    ∀ (b : List Nat), (S.map (fun g => b.count g)).sum ≤ b.length := by
  intro b
  induction b with
  | nil =>
    simp [List.count_nil]
  | cons x t ih =>
    have hc : S.map (fun g => (x :: t).count g)
        = S.map (fun g => t.count g + if x == g then 1 else 0) := by
      apply List.map_congr_left
      intro g _
      rw [List.count_cons]
    rw [hc, sum_map_add, List.length_cons]
    have := sum_indicator_le_one x S hS
    omega

theorem sum_eq_sum_getD :
    ∀ (l : List Nat),
    ((List.range l.length).map (fun p => l.getD p 0)).sum = sum l := by
  intro l
  induction l with
  | nil => rfl
  | cons a t ih =>
    rw [List.length_cons, List.range_succ_eq_map, List.map_cons,
      List.map_map, List.sum_cons, sum_cons]
    congr 1

theorem countP_le_sum_map (p : Nat → Bool) (f : Nat → Nat)
    (h : ∀ a, p a = true → 1 ≤ f a) :
    ∀ (l : List Nat), l.countP p ≤ (l.map f).sum := by
  intro l
  induction l with
  | nil => simp
  | cons a t ih =>
    rw [List.countP_cons, List.map_cons, List.sum_cons]
    have e1 : (if true = true then (1 : Nat) else 0) = 1 := rfl
    have e0 : (if false = true then (1 : Nat) else 0) = 0 := rfl
    by_cases hpa : p a = true
    · have := h a hpa
      rw [hpa, e1]
      omega
    · rw [Bool.eq_false_iff.mpr hpa, e0]
      omega

theorem two_mul_le_sum (f : Nat → Nat) :
    ∀ (l : List Nat),
    2 * (l.length - l.countP (fun a => decide (f a ≤ 1)))
      ≤ (l.map f).sum := by
  intro l
  induction l with
  | nil => simp
  | cons a t ih =>
    rw [List.countP_cons, List.map_cons, List.sum_cons, List.length_cons]
    have hle := @List.countP_le_length Nat (fun a => decide (f a ≤ 1)) t
    have e1 : (if true = true then (1 : Nat) else 0) = 1 := rfl
    have e0 : (if false = true then (1 : Nat) else 0) = 0 := rfl
    by_cases hfa : f a ≤ 1
    · rw [decide_eq_true hfa, e1]
      omega
    · rw [decide_eq_false hfa, e0]
      omega

/-! ## The length budget at an append step -/

theorem append_length_bound {b : List Nat} {m : Int}
    (hcomp : completable b m = 15) :
    (b.length : Int) ≤ 2 * m + 2 := by
  obtain ⟨t, hMt⟩ : ∃ t, max b = t + 1 :=
    ⟨max b - 1, by have := one_le_max b; omega⟩
  have hmiss := (completable_eq_15 hcomp).2.1
  -- the final missing-crossings table
  have hmlen : ((List.range' 1 t).foldl (missingStep b)
      (List.replicate (max b) 0)).length = max b := by
    rw [foldMissing_length, List.length_replicate]
  -- (i) singleton columns are all marked in the final table
  have hK1 : (List.range' 1 t).countP
        (fun p => decide (b.count (p + 1) ≤ 1))
      ≤ (List.range' 1 t).countP
        (fun p => decide (1 ≤ ((List.range' 1 t).foldl (missingStep b)
          (List.replicate (max b) 0)).getD p 0)) := by
    apply List.countP_mono_left
    intro p hp hdec
    have hcnt : b.count (p + 1) ≤ 1 := of_decide_eq_true hdec
    rw [List.mem_range'_1] at hp
    have ht4 : twistRegions b p < 4 := by
      have := twistRegions_le_count_succ b p
      omega
    have hset := foldMissing_sets b (List.range' 1 t)
      (List.replicate (max b) 0) p (by rw [List.mem_range'_1]; omega) ht4
      (by rw [List.length_replicate]; omega)
    exact decide_eq_true hset
  -- (ii) marked cells are at most the total of the table
  have hK2 : (List.range' 1 t).countP
        (fun p => decide (1 ≤ ((List.range' 1 t).foldl (missingStep b)
          (List.replicate (max b) 0)).getD p 0))
      ≤ sum ((List.range' 1 t).foldl (missingStep b)
          (List.replicate (max b) 0)) := by
    have hsub : (List.range' 1 t).Sublist
        (List.range ((List.range' 1 t).foldl (missingStep b)
          (List.replicate (max b) 0)).length) := by
      rw [hmlen, hMt, List.range_eq_range', List.range'_succ]
      have harith : 1 + 1 * t = 1 + t := by omega
      exact List.sublist_cons_self 0 (List.range' 1 t)
    refine Nat.le_trans (hsub.countP_le _) ?_
    refine Nat.le_trans (countP_le_sum_map _
      (fun p => ((List.range' 1 t).foldl (missingStep b)
        (List.replicate (max b) 0)).getD p 0)
      (fun a ha => of_decide_eq_true ha) _) ?_
    rw [sum_eq_sum_getD]
  -- (iii) generators 2..max with fewer than two occurrences
  have hK3 : 2 * (t - (List.range' 1 t).countP
        (fun p => decide (b.count (p + 1) ≤ 1)))
      ≤ ((List.range' 1 t).map (fun p => b.count (p + 1))).sum := by
    have := two_mul_le_sum (fun p => b.count (p + 1)) (List.range' 1 t)
    rw [List.length_range'] at this
    exact this
  -- (iv) those occurrence counts sum to at most the length of the word
  have hK4 : ((List.range' 1 t).map (fun p => b.count (p + 1))).sum
      ≤ b.length := by
    have hnd : (((List.range' 1 t).map (fun p => p + 1))).Nodup := by
      refine List.Nodup.map (fun a c hac => by omega) ?_
      exact List.nodup_range' 1 t
    have := sum_counts_le ((List.range' 1 t).map (fun p => p + 1)) hnd b
    rw [List.map_map] at this
    exact this
  have hKlen := @List.countP_le_length Nat
    (fun p => decide (b.count (p + 1) ≤ 1)) (List.range' 1 t)
  rw [List.length_range'] at hKlen
  -- assemble, converting the missing-crossings value
  have hmval : missingCrossingsForPrimality b
      = sum ((List.range' 1 t).foldl (missingStep b)
          (List.replicate (max b) 0)) := by
    unfold missingCrossingsForPrimality
    rw [hMt]
    have harith : t + 1 - 1 = t := by omega
    rw [harith]
  rw [hmval] at hmiss
  unfold b1 at hmiss
  rw [hMt] at hmiss hK1 hK2
  omega

/-! ## Access helpers for snoc decompositions and the running maximum -/

theorem getD_snoc_len : ∀ (l : List Nat) (y d : Nat),
    (l ++ [y]).getD l.length d = y := by
  intro l
  induction l with
  | nil => intro y d; rfl
  | cons a t ih =>
    intro y d
    rw [List.cons_append, List.length_cons, List.getD_cons_succ]
    exact ih y d

theorem dropLast_snoc_getD : ∀ (l : List Nat), l ≠ [] →
    l.dropLast ++ [l.getD (l.length - 1) 0] = l := by
  intro l
  induction l with
  | nil => intro h; exact absurd rfl h
  | cons a t ih =>
    intro _
    cases t with
    | nil => rfl
    | cons b t' =>
      have hdl : (a :: b :: t').dropLast = a :: (b :: t').dropLast := rfl
      have hlen : (a :: b :: t').length - 1 = t'.length + 1 := by simp
      rw [hlen, List.getD_cons_succ, hdl, List.cons_append]
      have ht' : t'.length = (b :: t').length - 1 := by simp
      rw [ht', ih (by simp)]

theorem getLastD_eq_getD : ∀ (l : List Nat) (d : Nat),
    l.getLastD d = l.getD (l.length - 1) d := by
  intro l
  induction l with
  | nil => intro d; rfl
  | cons a t ih =>
    intro d
    cases t with
    | nil => rfl
    | cons b t' =>
      rw [List.getLastD_cons, ih a]
      have hlen : (a :: b :: t').length - 1 = t'.length + 1 := by simp
      rw [hlen, List.getD_cons_succ]
      have ht' : t'.length = (b :: t').length - 1 := by simp
      rw [ht']
      exact getD_irrel _ _ (by simp) a d

theorem dropLast_snoc_getLastD (l : List Nat) (h : l ≠ []) :
    l.dropLast ++ [l.getLastD 0] = l := by
  rw [getLastD_eq_getD]
  exact dropLast_snoc_getD l h

theorem foldl_natmax_le : ∀ (l : List Nat) (r c : Nat), r ≤ c →
    (∀ x ∈ l, x ≤ c) → l.foldl Nat.max r ≤ c := by
  intro l
  induction l with
  | nil => intro r c hr _; exact hr
  | cons a t ih =>
    intro r c hr hl
    rw [List.foldl_cons]
    refine ih _ c ?_ (fun x hx => hl x (List.mem_cons_of_mem a hx))
    exact Nat.max_le.mpr ⟨hr, hl a (List.mem_cons_self a t)⟩

theorem maxElem_le {l : List Nat} {c : Nat} (h : ∀ x ∈ l, x ≤ c) :
    maxElem l ≤ c :=
  foldl_natmax_le l 0 c (Nat.zero_le c) h

theorem foldl_natmax_init : ∀ (l : List Nat) (r : Nat),
    r ≤ l.foldl Nat.max r := by
  intro l
  induction l with
  | nil => intro r; exact Nat.le_refl r
  | cons a t ih =>
    intro r
    rw [List.foldl_cons]
    exact Nat.le_trans (Nat.le_max_left r a) (ih _)

theorem le_foldl_natmax_of_mem {x : Nat} :
    ∀ (l : List Nat), x ∈ l → ∀ r, x ≤ l.foldl Nat.max r := by
  intro l
  induction l with
  | nil => intro hx; simp at hx
  | cons a t ih =>
    intro hx r
    rw [List.foldl_cons]
    rcases List.mem_cons.mp hx with rfl | hx
    · exact Nat.le_trans (Nat.le_max_right r x) (foldl_natmax_init t _)
    · exact ih hx _

theorem le_maxElem_of_mem {l : List Nat} {x : Nat} (h : x ∈ l) :
    x ≤ maxElem l :=
  le_foldl_natmax_of_mem l h 0

theorem interior_entry_bound {b : List Nat}
    (h0 : b.getD 0 0 = 1)
    (hcap : ∀ j, 1 ≤ j → j + 1 < b.length →
      b.getD j 0 ≤ 1 + maxElem (b.take j)) :
    ∀ j, j + 1 < b.length → b.getD j 0 ≤ j + 1 := by
  intro j
  induction j using Nat.strong_induction_on with
  | _ j ih =>
    intro hj
    cases Nat.eq_zero_or_pos j with
    | inl h =>
      subst h
      rw [h0]
    | inr hpos =>
      have hc := hcap j hpos hj
      have hmax : maxElem (b.take j) ≤ j := by
        apply maxElem_le
        intro x hx
        rw [List.mem_iff_getElem] at hx
        obtain ⟨i, hi, hxi⟩ := hx
        rw [List.length_take] at hi
        have hminl := Nat.min_le_left j b.length
        have hminr := Nat.min_le_right j b.length
        have hij : i < j := by omega
        have hval : b.getD i 0 = x := by
          rw [List.getD_eq_getElem b 0 (by omega : i < b.length), ← hxi]
          exact (List.getElem_take b).symm
        have hib := ih i hij (by omega)
        omega
      omega

theorem all_entry_bound {b : List Nat}
    (h0 : b.getD 0 0 = 1)
    (hcap : ∀ j, 1 ≤ j → j + 1 < b.length →
      b.getD j 0 ≤ 1 + maxElem (b.take j))
    (hlast : b.getD (b.length - 1) 0 ≤ 2 + maxElem b.dropLast) :
    ∀ j, j < b.length → b.getD j 0 ≤ b.length + 1 := by
  intro j hj
  by_cases hjlast : j + 1 < b.length
  · have := interior_entry_bound h0 hcap j hjlast
    omega
  · have hjeq : j = b.length - 1 := by omega
    subst hjeq
    have hmax : maxElem b.dropLast ≤ b.length - 1 := by
      apply maxElem_le
      intro x hx
      rw [List.dropLast_eq_take, List.mem_iff_getElem] at hx
      obtain ⟨i, hi, hxi⟩ := hx
      rw [List.length_take] at hi
      have hminl := Nat.min_le_left (b.length - 1) b.length
      have hminr := Nat.min_le_right (b.length - 1) b.length
      have hij : i < b.length - 1 := by omega
      have hval : b.getD i 0 = x := by
        rw [List.getD_eq_getElem b 0 (by omega : i < b.length), ← hxi]
        exact (List.getElem_take b).symm
      by_cases hi0 : i = 0
      · subst hi0
        omega
      · have := interior_entry_bound h0 hcap i (by omega)
        omega
    omega

/-! ## How the three word transformations act on positions -/

theorem getD_take_lt (l : List Nat) (k j d : Nat) (h : j < k)
    (h2 : j < l.length) : (l.take k).getD j d = l.getD j d := by
  rw [List.getD_eq_getElem _ _ (by rw [List.length_take]; exact lt_min h h2),
    List.getD_eq_getElem _ _ h2]
  exact List.getElem_take l

theorem dropLast_getD {b : List Nat} {j : Nat} (h : j + 1 < b.length) :
    b.dropLast.getD j 0 = b.getD j 0 := by
  rw [List.dropLast_eq_take]
  exact getD_take_lt b _ j 0 (by omega) (by omega)

theorem dropLast_take {b : List Nat} {j : Nat} (h : j + 1 ≤ b.length) :
    b.dropLast.take j = b.take j := by
  rw [List.dropLast_eq_take, List.take_take]
  congr 1
  omega

theorem dropLast_dropLast (b : List Nat) :
    b.dropLast.dropLast = b.take (b.length - 2) := by
  rw [List.dropLast_eq_take, List.dropLast_eq_take, List.take_take,
    List.length_take]
  congr 1
  omega

theorem incLast_length {b : List Nat} (h : b ≠ []) :
    (incLast b).length = b.length := by
  unfold incLast
  rw [List.length_append, List.length_dropLast]
  have := List.length_pos.mpr h
  simp
  omega

theorem incLast_getD_lt {b : List Nat} {j : Nat} (h : j + 1 < b.length) :
    (incLast b).getD j 0 = b.getD j 0 := by
  unfold incLast
  rw [List.getD_append _ _ _ j (by rw [List.length_dropLast]; omega)]
  exact dropLast_getD h

theorem incLast_getD_last {b : List Nat} (h : b ≠ []) :
    (incLast b).getD (b.length - 1) 0 = b.getD (b.length - 1) 0 + 1 := by
  unfold incLast
  rw [getLastD_eq_getD]
  have hl : b.length - 1 = b.dropLast.length := by
    rw [List.length_dropLast]
  rw [hl, getD_snoc_len]

theorem incLast_take {b : List Nat} {j : Nat} (h : j + 1 ≤ b.length) :
    (incLast b).take j = b.take j := by
  unfold incLast
  rw [List.take_append_of_le_length (by rw [List.length_dropLast]; omega)]
  exact dropLast_take h

theorem incLast_dropLast (b : List Nat) :
    (incLast b).dropLast = b.dropLast := by
  unfold incLast
  exact List.dropLast_concat

theorem appendLetter_length (b : List Nat) :
    (appendLetter b).length = b.length + 1 := by
  unfold appendLetter
  simp

theorem appendLetter_getD_lt {b : List Nat} {j : Nat} (h : j < b.length) :
    (appendLetter b).getD j 0 = b.getD j 0 := by
  unfold appendLetter
  exact List.getD_append _ _ _ j h

theorem appendLetter_getD_last (b : List Nat) :
    (appendLetter b).getD b.length 0
      = if b.getLastD 0 = 1 then 1 else b.getLastD 0 - 1 := by
  unfold appendLetter
  exact getD_snoc_len b _ 0

theorem appendLetter_take {b : List Nat} {j : Nat} (h : j ≤ b.length) :
    (appendLetter b).take j = b.take j := by
  unfold appendLetter
  exact List.take_append_of_le_length h

theorem appendLetter_dropLast (b : List Nat) :
    (appendLetter b).dropLast = b := by
  unfold appendLetter
  exact List.dropLast_concat

theorem lastLetter_le_of_not_high {b : List Nat} {m : Int}
    (hlen : 2 ≤ b.length) (h : lastLetterTooHigh b m = false) :
    b.getLastD 0 ≤ 1 + maxElem b.dropLast := by
  unfold lastLetterTooHigh at h
  rw [if_neg (by omega)] at h
  simp only [decide_eq_false_iff_not] at h
  omega

/-! ## The termination invariant of the driver loop -/

theorem termInv_init {L : Nat} (hL : 3 ≤ L) : TermInv L initState := by
  refine ⟨by simp [initState], ?_, ?_⟩
  · intro x hx
    simp [initState] at hx
    omega
  · intro _
    refine ⟨rfl, ?_, ?_, ?_⟩
    · simpa [initState] using by omega
    · intro j hj1 hj2
      simp [initState] at hj2
      omega
    · show (1 : Nat) ≤ 2 + maxElem [1]
      omega

theorem stepState_termInv {m : Int} {L : Nat} {s : SearchState}
    (hm : 0 ≤ m) (hL : L = 2 * m.toNat + 3)
    (hlen : 1 < s.braid.length) (hI : TermInv L s) :
    TermInv L (stepState m s) := by
  obtain ⟨hne, hent, hrest⟩ := hI
  obtain ⟨h0, hlenL, hcap, hlast⟩ := hrest hlen
  unfold stepState
  split_ifs with hth hc hb
  -- T1: pop and increment
  · have hDne : s.braid.dropLast ≠ [] := by
      rw [← List.length_pos, List.length_dropLast]
      omega
    have hblen : (incLast s.braid.dropLast).length = s.braid.length - 1 := by
      rw [incLast_length hDne, List.length_dropLast]
    refine ⟨incLast_ne_nil _,
      incLast_entries (fun x hx => hent x (mem_of_mem_dropLast hx)), ?_⟩
    intro hlen'
    rw [hblen] at hlen'
    have hn3 : 3 ≤ s.braid.length := by omega
    refine ⟨?_, ?_, ?_, ?_⟩
    · show (incLast s.braid.dropLast).getD 0 0 = 1
      rw [incLast_getD_lt (by rw [List.length_dropLast]; omega),
        dropLast_getD (by omega)]
      exact h0
    · rw [hblen]
      omega
    · intro j hj1 hj2
      rw [hblen] at hj2
      rw [incLast_getD_lt (by rw [List.length_dropLast]; omega),
        dropLast_getD (by omega),
        incLast_take (by rw [List.length_dropLast]; omega),
        dropLast_take (by omega)]
      exact hcap j hj1 (by omega)
    · rw [hblen, incLast_dropLast, dropLast_dropLast]
      have hidx : s.braid.length - 1 - 1 = s.braid.dropLast.length - 1 := by
        rw [List.length_dropLast]
      rw [hidx, incLast_getD_last hDne, ← hidx]
      have hDgetD : s.braid.dropLast.getD (s.braid.length - 1 - 1) 0
          = s.braid.getD (s.braid.length - 2) 0 := by
        rw [show s.braid.length - 1 - 1 = s.braid.length - 2 from by omega]
        exact dropLast_getD (by omega)
      rw [hDgetD]
      have hc2 := hcap (s.braid.length - 2) (by omega) (by omega)
      omega
  -- T2: oracle rejection, increment last letter
  · have hth' : lastLetterTooHigh s.braid m = false :=
      Bool.not_eq_true _ ▸ eq_false_of_ne_true hth
    have hll := lastLetter_le_of_not_high (by omega) hth'
    refine ⟨incLast_ne_nil _, incLast_entries hent, ?_⟩
    intro hlen'
    have hblen : (incLast s.braid).length = s.braid.length :=
      incLast_length hne
    refine ⟨?_, ?_, ?_, ?_⟩
    · rw [incLast_getD_lt (by omega)]
      exact h0
    · rw [hblen]
      exact hlenL
    · intro j hj1 hj2
      rw [hblen] at hj2
      rw [incLast_getD_lt (by omega), incLast_take (by omega)]
      exact hcap j hj1 hj2
    · rw [hblen, incLast_dropLast, incLast_getD_last hne,
        ← getLastD_eq_getD]
      omega
  -- T3: deepen by appending a letter
  · have hth' : lastLetterTooHigh s.braid m = false :=
      Bool.not_eq_true _ ▸ eq_false_of_ne_true hth
    have hll := lastLetter_le_of_not_high (by omega) hth'
    have hcomp : completable s.braid m = 15 := not_not.mp hc
    have hbound := append_length_bound hcomp
    refine ⟨appendLetter_ne_nil _, appendLetter_entries hne hent, ?_⟩
    intro _
    have hblen : (appendLetter s.braid).length = s.braid.length + 1 :=
      appendLetter_length _
    refine ⟨?_, ?_, ?_, ?_⟩
    · rw [appendLetter_getD_lt (by omega)]
      exact h0
    · rw [hblen]
      omega
    · intro j hj1 hj2
      rw [hblen] at hj2
      by_cases hjlast : j + 1 < s.braid.length
      · rw [appendLetter_getD_lt (by omega),
          appendLetter_take (by omega)]
        exact hcap j hj1 hjlast
      · have hjeq : j = s.braid.length - 1 := by omega
        rw [appendLetter_getD_lt (by omega),
          appendLetter_take (by omega)]
        rw [hjeq, ← getLastD_eq_getD, ← List.dropLast_eq_take]
        exact hll
    · rw [hblen, appendLetter_dropLast]
      have hidx : s.braid.length + 1 - 1 = s.braid.length := by omega
      rw [hidx, appendLetter_getD_last]
      have hlmem : s.braid.getLastD 0 ∈ s.braid := getLastD_mem _ _ hne
      have hlmax : s.braid.getLastD 0 ≤ maxElem s.braid :=
        le_maxElem_of_mem hlmem
      split_ifs with h1
      · omega
      · omega
  -- T4: emit and increment last letter
  · have hth' : lastLetterTooHigh s.braid m = false :=
      Bool.not_eq_true _ ▸ eq_false_of_ne_true hth
    have hll := lastLetter_le_of_not_high (by omega) hth'
    refine ⟨incLast_ne_nil _, incLast_entries hent, ?_⟩
    intro hlen'
    have hblen : (incLast s.braid).length = s.braid.length :=
      incLast_length hne
    refine ⟨?_, ?_, ?_, ?_⟩
    · rw [incLast_getD_lt (by omega)]
      exact h0
    · rw [hblen]
      exact hlenL
    · intro j hj1 hj2
      rw [hblen] at hj2
      rw [incLast_getD_lt (by omega), incLast_take (by omega)]
      exact hcap j hj1 hj2
    · rw [hblen, incLast_dropLast, incLast_getD_last hne,
        ← getLastD_eq_getD]
      omega

/-! ## A strictly increasing positional measure for the search -/

theorem nuFrom_append (E cap : Nat) :
    ∀ (l1 l2 : List Nat) (j : Nat),
    nuFrom E cap (l1 ++ l2) j
      = nuFrom E cap l1 j + nuFrom E cap l2 (j + l1.length) := by
  intro l1
  induction l1 with
  | nil =>
    intro l2 j
    simp [nuFrom]
  | cons x t ih =>
    intro l2 j
    rw [List.cons_append]
    show x * E ^ (cap - j) + nuFrom E cap (t ++ l2) (j + 1) = _
    rw [ih l2 (j + 1)]
    rw [show nuFrom E cap (x :: t) j
      = x * E ^ (cap - j) + nuFrom E cap t (j + 1) from rfl]
    rw [List.length_cons]
    rw [show j + 1 + t.length = j + (t.length + 1) from by omega]
    omega

theorem nuFrom_snoc (E cap : Nat) (l : List Nat) (y j : Nat) :
    nuFrom E cap (l ++ [y]) j
      = nuFrom E cap l j + y * E ^ (cap - (j + l.length)) := by
  rw [nuFrom_append]
  show _ = nuFrom E cap l j + y * E ^ (cap - (j + l.length))
  rw [show nuFrom E cap [y] (j + l.length)
    = y * E ^ (cap - (j + l.length)) + nuFrom E cap [] (j + l.length + 1)
    from rfl]
  show nuFrom E cap l j + (y * E ^ (cap - (j + l.length)) + 0) = _
  omega

theorem nuFrom_le (E cap : Nat) (hE : 1 ≤ E) :
    ∀ (l : List Nat) (j : Nat), (∀ x ∈ l, x ≤ E) →
    nuFrom E cap l j ≤ l.length * (E * E ^ cap) := by
  intro l
  induction l with
  | nil =>
    intro j _
    simp [nuFrom]
  | cons x t ih =>
    intro j hx
    show x * E ^ (cap - j) + nuFrom E cap t (j + 1) ≤ _
    have h1 : x * E ^ (cap - j) ≤ E * E ^ cap := by
      refine Nat.mul_le_mul (hx x (List.mem_cons_self x t)) ?_
      exact Nat.pow_le_pow_right (by omega) (by omega)
    have h2 := ih (j + 1) (fun y hy => hx y (List.mem_cons_of_mem x hy))
    rw [List.length_cons, Nat.succ_mul]
    omega

theorem nuFrom_decomp (E cap : Nat) (l : List Nat) (h : l ≠ []) (j : Nat) :
    nuFrom E cap l j = nuFrom E cap l.dropLast j
      + l.getLastD 0 * E ^ (cap - (j + (l.length - 1))) := by
  conv_lhs => rw [← dropLast_snoc_getLastD l h]
  rw [nuFrom_snoc, List.length_dropLast]

theorem step_nu_lt {m : Int} {L : Nat} {s : SearchState}
    (hlen : 1 < s.braid.length) (hI : TermInv L s) :
    nuFrom (L + 2) L s.braid 0
      < nuFrom (L + 2) L (stepState m s).braid 0 := by
  obtain ⟨hne, hent, hrest⟩ := hI
  obtain ⟨h0, hlenL, hcap, hlast⟩ := hrest hlen
  have hEnt := all_entry_bound h0 hcap hlast
  unfold stepState
  split_ifs with hth hc hb
  -- T1: pop and increment
  · show nuFrom (L + 2) L s.braid 0
      < nuFrom (L + 2) L (incLast s.braid.dropLast) 0
    have hDne : s.braid.dropLast ≠ [] := by
      rw [← List.length_pos, List.length_dropLast]
      omega
    rw [nuFrom_decomp _ _ s.braid hne, nuFrom_decomp _ _ s.braid.dropLast hDne,
      show incLast s.braid.dropLast = s.braid.dropLast.dropLast
        ++ [s.braid.dropLast.getLastD 0 + 1] from rfl,
      nuFrom_snoc]
    have hdd2 : s.braid.dropLast.dropLast.length = s.braid.dropLast.length - 1 :=
      List.length_dropLast _
    have hdd : s.braid.dropLast.length = s.braid.length - 1 :=
      List.length_dropLast _
    rw [hdd2, hdd]
    have hexp : L - (0 + (s.braid.length - 1 - 1))
        = (L - (0 + (s.braid.length - 1))) + 1 := by omega
    rw [hexp, pow_succ, Nat.succ_mul]
    have hApos : 0 < (L + 2) ^ (L - (0 + (s.braid.length - 1))) :=
      Nat.pos_pow_of_pos _ (by omega)
    have hlastE : s.braid.getLastD 0 < L + 2 := by
      rw [getLastD_eq_getD]
      have := hEnt (s.braid.length - 1) (by omega)
      omega
    have hkey : s.braid.getLastD 0
          * (L + 2) ^ (L - (0 + (s.braid.length - 1)))
        < (L + 2) ^ (L - (0 + (s.braid.length - 1))) * (L + 2) := by
      rw [Nat.mul_comm ((L + 2) ^ (L - (0 + (s.braid.length - 1)))) (L + 2)]
      exact mul_lt_mul_of_pos_right hlastE hApos
    omega
  -- T2: increment on oracle rejection
  · show nuFrom (L + 2) L s.braid 0 < nuFrom (L + 2) L (incLast s.braid) 0
    rw [nuFrom_decomp _ _ s.braid hne,
      show incLast s.braid
        = s.braid.dropLast ++ [s.braid.getLastD 0 + 1] from rfl,
      nuFrom_snoc, List.length_dropLast, Nat.succ_mul]
    have hApos : 0 < (L + 2) ^ (L - (0 + (s.braid.length - 1))) :=
      Nat.pos_pow_of_pos _ (by omega)
    omega
  -- T3: append a letter
  · show nuFrom (L + 2) L s.braid 0
      < nuFrom (L + 2) L (appendLetter s.braid) 0
    rw [show appendLetter s.braid = s.braid ++
        [if s.braid.getLastD 0 = 1 then 1 else s.braid.getLastD 0 - 1]
        from rfl, nuFrom_snoc]
    have hApos : 0 < (L + 2) ^ (L - (0 + s.braid.length)) :=
      Nat.pos_pow_of_pos _ (by omega)
    have hmem := getLastD_mem s.braid 0 hne
    have hv : 1 ≤ (if s.braid.getLastD 0 = 1 then 1
        else s.braid.getLastD 0 - 1) := by
      have := hent _ hmem
      split_ifs with h1
      · omega
      · omega
    have hvA : 1 ≤ (if s.braid.getLastD 0 = 1 then 1
        else s.braid.getLastD 0 - 1)
          * (L + 2) ^ (L - (0 + s.braid.length)) :=
      Nat.one_le_iff_ne_zero.mpr (Nat.mul_ne_zero (by omega) (by omega))
    omega
  -- T4: emit, then increment
  · show nuFrom (L + 2) L s.braid 0 < nuFrom (L + 2) L (incLast s.braid) 0
    rw [nuFrom_decomp _ _ s.braid hne,
      show incLast s.braid
        = s.braid.dropLast ++ [s.braid.getLastD 0 + 1] from rfl,
      nuFrom_snoc, List.length_dropLast, Nat.succ_mul]
    have hApos : 0 < (L + 2) ^ (L - (0 + (s.braid.length - 1))) :=
      Nat.pos_pow_of_pos _ (by omega)
    omega

theorem runAux_termInv (m : Int) (hm : 0 ≤ m) :
    ∀ (k : Nat) (s : SearchState), TermInv (2 * m.toNat + 3) s →
    TermInv (2 * m.toNat + 3) (runAux m k s) := by
  intro k
  induction k with
  | zero => intro s h; exact h
  | succ k ih =>
    intro s h
    rw [runAux_succ]
    by_cases hg : 1 < s.braid.length
    · rw [if_pos hg]
      exact ih _ (stepState_termInv hm rfl hg h)
    · rw [if_neg hg]
      exact h

theorem runAux_nu (m : Int) (hm : 0 ≤ m) :
    ∀ (k : Nat) (s : SearchState), TermInv (2 * m.toNat + 3) s →
    1 < (runAux m k s).braid.length →
    nuFrom (2 * m.toNat + 3 + 2) (2 * m.toNat + 3) s.braid 0 + k
      ≤ nuFrom (2 * m.toNat + 3 + 2) (2 * m.toNat + 3)
          (runAux m k s).braid 0 := by
  intro k
  induction k with
  | zero =>
    intro s _ _
    show nuFrom (2 * m.toNat + 3 + 2) (2 * m.toNat + 3) s.braid 0 + 0
      ≤ nuFrom (2 * m.toNat + 3 + 2) (2 * m.toNat + 3) s.braid 0
    omega
  | succ k ih =>
    intro s hI hfin
    rw [runAux_succ] at hfin ⊢
    by_cases hg : 1 < s.braid.length
    · rw [if_pos hg] at hfin ⊢
      have hstep := @step_nu_lt m (2 * m.toNat + 3) s hg hI
      have hrec := ih (stepState m s) (stepState_termInv hm rfl hg hI) hfin
      omega
    · rw [if_neg hg] at hfin
      exact absurd hfin hg

/-! ## Claim C8 -/

/-- C8: for every bound `maxB1 ≥ 0` the driver loop of `listBraids`,
started from the seed word `[1, 1]`, halts after finitely many
iterations: some fuel value brings the braid word down to length at most
one, and running any longer changes nothing. -/
theorem claim_C8 (maxB1 : Int) (hm : 0 ≤ maxB1) :
    ∃ n, ((listBraids maxB1 n).braid).length ≤ 1 ∧
      ∀ k, listBraids maxB1 (n + k) = listBraids maxB1 n := by
  have hI0 : TermInv (2 * maxB1.toNat + 3) initState :=
    termInv_init (by omega)
  have hhalt : ((listBraids maxB1 ((2 * maxB1.toNat + 3)
      * ((2 * maxB1.toNat + 3 + 2)
        * (2 * maxB1.toNat + 3 + 2) ^ (2 * maxB1.toNat + 3)) + 1)).braid).length
      ≤ 1 := by
    by_contra hgt
    push_neg at hgt
    unfold listBraids at hgt
    have hrun := runAux_nu maxB1 hm _ initState hI0 hgt
    have hIfin := runAux_termInv maxB1 hm ((2 * maxB1.toNat + 3)
      * ((2 * maxB1.toNat + 3 + 2)
        * (2 * maxB1.toNat + 3 + 2) ^ (2 * maxB1.toNat + 3)) + 1)
      initState hI0
    obtain ⟨hne', hent', hrest'⟩ := hIfin
    obtain ⟨h0', hlenL', hcap', hlast'⟩ := hrest' hgt
    have hEnt' := all_entry_bound h0' hcap' hlast'
    have hxle : ∀ x ∈ (runAux maxB1 ((2 * maxB1.toNat + 3)
        * ((2 * maxB1.toNat + 3 + 2)
          * (2 * maxB1.toNat + 3 + 2) ^ (2 * maxB1.toNat + 3)) + 1)
        initState).braid, x ≤ 2 * maxB1.toNat + 3 + 2 := by
      intro x hx
      rw [List.mem_iff_getElem] at hx
      obtain ⟨i, hi, hxi⟩ := hx
      have hval := List.getD_eq_getElem
        (runAux maxB1 ((2 * maxB1.toNat + 3)
          * ((2 * maxB1.toNat + 3 + 2)
            * (2 * maxB1.toNat + 3 + 2) ^ (2 * maxB1.toNat + 3)) + 1)
          initState).braid 0 hi
      have := hEnt' i hi
      omega
    have hb := nuFrom_le (2 * maxB1.toNat + 3 + 2) (2 * maxB1.toNat + 3)
      (by omega) _ 0 hxle
    have hlm := Nat.mul_le_mul_right
      ((2 * maxB1.toNat + 3 + 2)
        * (2 * maxB1.toNat + 3 + 2) ^ (2 * maxB1.toNat + 3)) hlenL'
    omega
  refine ⟨_, hhalt, ?_⟩
  intro k
  unfold listBraids at hhalt ⊢
  rw [runAux_add]
  exact runAux_halted maxB1 k _ (by omega)

/-- Witness: the `maxB1 = 2` run reaches a length-`≤ 1` word after
finitely many iterations and stays there. -/
theorem claim_C8_witness :
    (0 : Int) ≤ 2 ∧
    ∃ n, ((listBraids 2 n).braid).length ≤ 1 ∧
      ∀ k, listBraids 2 (n + k) = listBraids 2 n :=
  ⟨by decide, claim_C8 2 (by decide)⟩
